import Mathlib

/-!
# Verification of the tolerant JSON recovery pipeline

This file embeds, in Lean 4, the JSON recovery pipeline of the repository's
`/api/agent` endpoint (`src/app/api/agent/route.ts`, function `POST`) together
with the spec-described recovery core (`parseLLMJson`, whose implementation is
not part of the shipped sources; it is modelled from the spec where noted).

Conventions of the embedding:
* JavaScript strings are modelled as Lean `String` / `List Char` (sequences of
  Unicode scalar values).
* JSON numbers are modelled by their numeric lexeme (the exact matched text).
  JavaScript maps a lexeme to an IEEE double; the lexeme determines the double,
  and no modelled code inspects numeric magnitude except zero-ness, which is
  computed from the lexeme.  `JSON.stringify` re-emits the stored lexeme.
* `JSON.parse` is modelled by `parseStrict` (RFC 8259 grammar, the comments on
  each helper note the deliberate JavaScript-facing choices).
* Exceptions are modelled with `Option` / flags, mutation by returning the new
  value; a definition-level comment records each such translation.
* Special characters are named constants (`dqC`, `bsC`, ...) so that scanners
  read uniformly; `\x7b`/`\x7d` denote literal braces inside string literals.
-/

/-! ## Character constants and character classes -/

/-- Double quote character `"`. -/
def dqC : Char := Char.ofNat 34

/-- Single quote character. -/
def sqC : Char := Char.ofNat 39

/-- Backslash character. -/
def bsC : Char := Char.ofNat 92

/-- Backtick character. -/
def btC : Char := Char.ofNat 96

/-- Left curly brace. -/
def lbC : Char := Char.ofNat 123

/-- Right curly brace. -/
def rbC : Char := Char.ofNat 125

/-- Left square bracket. -/
def lkC : Char := Char.ofNat 91

/-- Right square bracket. -/
def rkC : Char := Char.ofNat 93

/-- Byte-order mark U+FEFF. -/
def bomC : Char := Char.ofNat 0xFEFF

/-- JavaScript whitespace (the set used by `String.prototype.trim` and by the
regex class `\s`: WhiteSpace plus LineTerminator, ECMA-262).  It includes the
byte-order mark U+FEFF. -/
def isJsWs (c : Char) : Bool :=
  c = ' ' || c = '\t' || c = '\n' || c = '\r' ||
  c = Char.ofNat 0x0b || c = Char.ofNat 0x0c || c = Char.ofNat 0xa0 ||
  c = bomC || c = Char.ofNat 0x1680 ||
  (0x2000 ≤ c.toNat && c.toNat ≤ 0x200a) ||
  c = Char.ofNat 0x2028 || c = Char.ofNat 0x2029 ||
  c = Char.ofNat 0x202f || c = Char.ofNat 0x205f || c = Char.ofNat 0x3000

/-- ECMA-262 LineTerminator: the positions at which a multiline `^` matches
just after, and a multiline `$` matches just before. -/
def isLineTerm (c : Char) : Bool :=
  c = '\n' || c = '\r' || c = Char.ofNat 0x2028 || c = Char.ofNat 0x2029

/-- `sub` occurs at the head of `l`. -/
def headMatches : List Char → List Char → Bool
  | [], _ => true
  | _ :: _, [] => false
  | a :: as, b :: bs => a = b && headMatches as bs

/-- JavaScript `String.prototype.includes`: `sub` occurs somewhere in `s`. -/
def containsSub (s sub : String) : Bool :=
  (List.range (s.data.length + 1)).any fun i => headMatches sub.data (s.data.drop i)

/-! ## The JSON data model

`RecoveredValue` of the spec: a tagged union over
Null/Bool/Number/String/Array/Object-of-string-to-value.  Objects keep their
fields in textual order.  (JavaScript deduplicates repeated keys last-wins;
no modelled code path produces or consumes a repeated key, so the plain
association list is kept.) -/

inductive JsonValue : Type where
  | null : JsonValue
  | bool : Bool → JsonValue
  | num : String → JsonValue
  | str : String → JsonValue
  | arr : List JsonValue → JsonValue
  | obj : List (String × JsonValue) → JsonValue

namespace JsonValue

mutual

/-- Structural equality test; mutual with the list forms because `deriving`
has no handler for the nested `List` occurrences. -/
def beq : JsonValue → JsonValue → Bool
  | obj fa, obj fb => beqFields fa fb
  | arr xa, arr xb => beqList xa xb
  | str sa, str sb => sa == sb
  | num na, num nb => na == nb
  | bool ba, bool bb => ba == bb
  | null, null => true
  | _, _ => false

/-- Elementwise equality of value lists. -/
def beqList : List JsonValue → List JsonValue → Bool
  | a :: as, b :: bs => beq a b && beqList as bs
  | [], [] => true
  | _, _ => false

/-- Fieldwise equality of field lists. -/
def beqFields : List (String × JsonValue) → List (String × JsonValue) → Bool
  | (ka, va) :: ps, (kb, vb) :: qs => ka == kb && beq va vb && beqFields ps qs
  | [], [] => true
  | _, _ => false

end

mutual

theorem beq_iff_eq : ∀ a b : JsonValue, beq a b = true ↔ a = b
  | obj fa, obj fb => by simp [beq, beqFields_iff_eq fa fb]
  | arr xa, arr xb => by simp [beq, beqList_iff_eq xa xb]
  | null, null => by simp [beq]
  | bool ba, bool bb => by simp [beq]
  | num na, num nb => by simp [beq]
  | str sa, str sb => by simp [beq]
  | bool _, null | num _, null | str _, null | arr _, null | obj _, null
  | null, bool _ | num _, bool _ | str _, bool _ | arr _, bool _ | obj _, bool _
  | null, num _ | bool _, num _ | str _, num _ | arr _, num _ | obj _, num _
  | null, str _ | bool _, str _ | num _, str _ | arr _, str _ | obj _, str _
  | null, arr _ | bool _, arr _ | num _, arr _ | str _, arr _ | obj _, arr _
  | null, obj _ | bool _, obj _ | num _, obj _ | str _, obj _ | arr _, obj _ => by
    simp [beq]

theorem beqList_iff_eq : ∀ xs ys : List JsonValue, beqList xs ys = true ↔ xs = ys
  | [], _ :: _ => by simp [beqList]
  | _ :: _, [] => by simp [beqList]
  | [], [] => by simp [beqList]
  | a :: as, b :: bs => by simp [beqList, beq_iff_eq a b, beqList_iff_eq as bs]

theorem beqFields_iff_eq :
    ∀ xs ys : List (String × JsonValue), beqFields xs ys = true ↔ xs = ys
  | [], _ :: _ => by simp [beqFields]
  | _ :: _, [] => by simp [beqFields]
  | [], [] => by simp [beqFields]
  | (ka, va) :: ps, (kb, vb) :: qs => by
    simp [beqFields, beq_iff_eq va vb, beqFields_iff_eq ps qs, and_assoc]

end

instance : DecidableEq JsonValue := fun a b =>
  decidable_of_iff (beq a b = true) (beq_iff_eq a b)

/-- JavaScript `x && typeof x === 'object'`: a non-null object or an array.
`null` has `typeof 'object'` but is falsy, so it is excluded, exactly as the
route's guards exclude it. -/
def objLike : JsonValue → Bool
  | obj _ => true
  | arr _ => true
  | _ => false

/-- Property read on an object (`x.k`); `none` models `undefined`.  Non-object
values have no own properties that any modelled read targets. -/
def getField : JsonValue → String → Option JsonValue
  | obj fs, k => (fs.find? fun p => p.1 == k).map Prod.snd
  | _, _ => none

/-- JavaScript property assignment `x.k = v` on an object: overwrite an
existing key in place, else append.  Models the route's
`parsedResponse.raw_response = data.response` mutation. -/
def addField : JsonValue → String → JsonValue → JsonValue
  | obj fs, k, v =>
      if fs.any fun p => p.1 == k then
        obj (fs.map fun p => if p.1 == k then (p.1, v) else p)
      else obj (fs ++ [(k, v)])
  | x, _, _ => x

/-- All mantissa digits of a numeric lexeme are `0` (the lexeme denotes the
JavaScript number `0`, which is falsy). -/
def zeroLexeme (s : String) : Bool :=
  (s.data.takeWhile fun c => c ≠ 'e' && c ≠ 'E').all fun c =>
    c = '0' || c = '-' || c = '.'

/-- JavaScript truthiness of a parsed JSON value. -/
def truthy : JsonValue → Bool
  | null => false
  | bool b => b
  | num lex => !zeroLexeme lex
  | str s => s ≠ ""
  | arr _ => true
  | obj _ => true

end JsonValue

/-! ## Strict JSON parser — model of `JSON.parse` (spec 4.2)

Recursive descent over `List Char`, with a fuel argument for the nesting
recursion.  The top-level entry supplies fuel `2 * length + 2`, which is shown
sufficient where the proofs need it.  Failure (`none`) models a thrown
`SyntaxError`. -/

/-- RFC 8259 insignificant whitespace: space, tab, line feed, carriage
return. -/
def isJsonWs (c : Char) : Bool :=
  c = ' ' || c = '\t' || c = '\n' || c = '\r'

/-- Drop insignificant JSON whitespace. -/
def skipWs (cs : List Char) : List Char := cs.dropWhile isJsonWs

/-- Value of one hexadecimal digit. -/
def hexVal (c : Char) : Option Nat :=
  if '0' ≤ c ∧ c ≤ '9' then some (c.toNat - 48)
  else if 'a' ≤ c ∧ c ≤ 'f' then some (c.toNat - 87)
  else if 'A' ≤ c ∧ c ≤ 'F' then some (c.toNat - 55)
  else none

/-- Value of a four-hex-digit escape payload. -/
def hex4 (a b c d : Char) : Option Nat := do
  let x ← hexVal a
  let y ← hexVal b
  let z ← hexVal c
  let w ← hexVal d
  pure (x * 4096 + y * 256 + z * 16 + w)

/-- Single-character string escapes of the JSON grammar. -/
def escChar1 (e : Char) : Option Char :=
  if e = dqC then some dqC
  else if e = bsC then some bsC
  else if e = '/' then some '/'
  else if e = 'b' then some (Char.ofNat 8)
  else if e = 'f' then some (Char.ofNat 12)
  else if e = 'n' then some '\n'
  else if e = 'r' then some '\r'
  else if e = 't' then some '\t'
  else none

/-- Lex a string body (the opening quote already consumed): returns the
decoded content and the text after the closing quote.  Unescaped control
characters are rejected, as `JSON.parse` rejects them.  `\uXXXX` surrogate
pairs are combined into one scalar; a lone surrogate is reported as failure
(JavaScript would keep a lone UTF-16 surrogate, which a sequence of Unicode
scalar values cannot represent; no claim input contains one). -/
def lexStrF : Nat → List Char → Option (List Char × List Char)
  | 0, _ => none
  | _, [] => none
  | f + 1, c :: rest =>
    if c = dqC then some ([], rest)
    else if c = bsC then
      match rest with
      | [] => none
      | e :: r2 =>
        if e = 'u' then
          match r2 with
          | h1 :: h2 :: h3 :: h4 :: r3 =>
            match hex4 h1 h2 h3 h4 with
            | none => none
            | some v =>
              if v < 0xd800 ∨ 0xdfff < v then
                (lexStrF f r3).map fun p => (Char.ofNat v :: p.1, p.2)
              else if v ≤ 0xdbff then
                match r3 with
                | b2 :: u2 :: l1 :: l2 :: l3 :: l4 :: r4 =>
                  if b2 = bsC ∧ u2 = 'u' then
                    match hex4 l1 l2 l3 l4 with
                    | none => none
                    | some lv =>
                      if 0xdc00 ≤ lv ∧ lv ≤ 0xdfff then
                        (lexStrF f r4).map fun p =>
                          (Char.ofNat (0x10000 + (v - 0xd800) * 0x400 + (lv - 0xdc00)) :: p.1,
                           p.2)
                      else none
                  else none
                | _ => none
              else none
          | _ => none
        else
          match escChar1 e with
          | some ch => (lexStrF f r2).map fun p => (ch :: p.1, p.2)
          | none => none
    else if c.toNat < 0x20 then none
    else (lexStrF f rest).map fun p => (c :: p.1, p.2)

/-- `lexStrF` with enough fuel for its whole input (every step consumes at
least one character, so the input length plus one never runs out). -/
def lexStr (cs : List Char) : Option (List Char × List Char) :=
  lexStrF (cs.length + 1) cs

/-- Split a maximal run of decimal digits. -/
def takeDigits (cs : List Char) : List Char × List Char :=
  (cs.takeWhile Char.isDigit, cs.dropWhile Char.isDigit)

/-- Integer part of the JSON numeric grammar: `0`, or a nonzero digit followed
by digits (leading zeros rejected). -/
def lexInt : List Char → Option (List Char × List Char)
  | [] => none
  | c :: rest =>
    if c = '0' then some ([c], rest)
    else if c.isDigit then
      let p := takeDigits rest
      some (c :: p.1, p.2)
    else none

/-- Optional fraction part: `.` followed by one or more digits, else nothing
consumed. -/
def lexFracOpt : List Char → List Char × List Char
  | [] => ([], [])
  | c :: rest =>
    if c = '.' then
      let p := takeDigits rest
      if p.1.isEmpty then ([], c :: rest) else (c :: p.1, p.2)
    else ([], c :: rest)

/-- Optional exponent part: `e`/`E`, optional sign, one or more digits, else
nothing consumed. -/
def lexExpOpt : List Char → List Char × List Char
  | [] => ([], [])
  | c :: rest =>
    if c = 'e' || c = 'E' then
      let sp : List Char × List Char :=
        match rest with
        | s :: r => if s = '+' || s = '-' then ([s], r) else ([], s :: r)
        | [] => ([], [])
      let p := takeDigits sp.2
      if p.1.isEmpty then ([], c :: rest) else (c :: sp.1 ++ p.1, p.2)
    else ([], c :: rest)

/-- Lex a number per the JSON numeric grammar; the result keeps the exact
matched lexeme. -/
def lexNum (cs : List Char) : Option (String × List Char) :=
  let sp : List Char × List Char :=
    match cs with
    | c :: rest => if c = '-' then ([c], rest) else ([], cs)
    | [] => ([], [])
  match lexInt sp.2 with
  | none => none
  | some (ip, cs2) =>
    let fp := lexFracOpt cs2
    let ep := lexExpOpt fp.2
    some (String.mk (sp.1 ++ ip ++ fp.1 ++ ep.1), ep.2)

mutual

/-- Parse one JSON value (after optional leading whitespace), returning the
remaining text. -/
def parseVal : Nat → List Char → Option (JsonValue × List Char)
  | 0, _ => none
  | f + 1, cs =>
    match skipWs cs with
    | [] => none
    | c :: rest =>
      if c = dqC then (lexStr rest).map fun p => (JsonValue.str (String.mk p.1), p.2)
      else if c = lbC then
        match skipWs rest with
        | c2 :: r2 =>
          if c2 = rbC then some (JsonValue.obj [], r2)
          else parseMembers f (c2 :: r2)
        | [] => none
      else if c = lkC then
        match skipWs rest with
        | c2 :: r2 =>
          if c2 = rkC then some (JsonValue.arr [], r2)
          else parseElems f (c2 :: r2)
        | [] => none
      else if c = 'n' then
        match rest with
        | 'u' :: 'l' :: 'l' :: r => some (JsonValue.null, r)
        | _ => none
      else if c = 't' then
        match rest with
        | 'r' :: 'u' :: 'e' :: r => some (JsonValue.bool true, r)
        | _ => none
      else if c = 'f' then
        match rest with
        | 'a' :: 'l' :: 's' :: 'e' :: r => some (JsonValue.bool false, r)
        | _ => none
      else (lexNum (c :: rest)).map fun p => (JsonValue.num p.1, p.2)

/-- Parse the member list of an object, positioned at the first key; returns
the object and the text after the closing brace. -/
def parseMembers : Nat → List Char → Option (JsonValue × List Char)
  | 0, _ => none
  | f + 1, cs =>
    match cs with
    | [] => none
    | c :: rest =>
      if c = dqC then
        match lexStr rest with
        | some (key, r2) =>
          match skipWs r2 with
          | c3 :: r3 =>
            if c3 = ':' then
              match parseVal f r3 with
              | some (v, r4) =>
                match skipWs r4 with
                | c5 :: r5 =>
                  if c5 = ',' then
                    match parseMembers f (skipWs r5) with
                    | some (JsonValue.obj flds, r6) =>
                        some (JsonValue.obj ((String.mk key, v) :: flds), r6)
                    | _ => none
                  else if c5 = rbC then some (JsonValue.obj [(String.mk key, v)], r5)
                  else none
                | [] => none
              | none => none
            else none
          | [] => none
        | none => none
      else none

/-- Parse the element list of an array, positioned at the first element;
returns the array and the text after the closing bracket. -/
def parseElems : Nat → List Char → Option (JsonValue × List Char)
  | 0, _ => none
  | f + 1, cs =>
    match parseVal f cs with
    | some (v, r) =>
      match skipWs r with
      | c2 :: r2 =>
        if c2 = ',' then
          match parseElems f r2 with
          | some (JsonValue.arr xs, r3) => some (JsonValue.arr (v :: xs), r3)
          | _ => none
        else if c2 = rkC then some (JsonValue.arr [v], r2)
        else none
      | [] => none
    | none => none

end

/-- Strict parse of a whole character list: one JSON value with only
whitespace allowed after it. -/
def parseStrictL (cs : List Char) : Option JsonValue :=
  match parseVal (2 * cs.length + 2) cs with
  | some (v, rest) => if (skipWs rest).isEmpty then some v else none
  | none => none

/-- `parseStrict` — the Strict Parser contract of spec 4.2, and the model of
every `JSON.parse` call in the route. -/
def parseStrict (s : String) : Option JsonValue := parseStrictL s.data

/-! ## Serializer — model of `JSON.stringify` (compact form, no spacing) -/

/-- Lowercase hexadecimal digit. -/
def hexDig (n : Nat) : Char :=
  if n < 10 then Char.ofNat (48 + n) else Char.ofNat (87 + n)

/-- Escape one character of a string body the way `JSON.stringify` does:
quote and backslash get a backslash escape, the named control characters get
their two-character escapes, other control characters get `\u00xx`, everything
else is emitted verbatim. -/
def escCh (c : Char) : List Char :=
  if c = dqC then [bsC, dqC]
  else if c = bsC then [bsC, bsC]
  else if c = Char.ofNat 8 then [bsC, 'b']
  else if c = Char.ofNat 12 then [bsC, 'f']
  else if c = '\n' then [bsC, 'n']
  else if c = '\r' then [bsC, 'r']
  else if c = '\t' then [bsC, 't']
  else if c.toNat < 0x20 then [bsC, 'u', '0', '0', hexDig (c.toNat / 16), hexDig (c.toNat % 16)]
  else [c]

/-- Escape a whole string body. -/
def escStr (cs : List Char) : List Char := cs.flatMap escCh

mutual

/-- Serialize a value to the character list `JSON.stringify` would emit. -/
def serCh : JsonValue → List Char
  | .null => 'n' :: 'u' :: 'l' :: 'l' :: []
  | .bool true => 't' :: 'r' :: 'u' :: 'e' :: []
  | .bool false => 'f' :: 'a' :: 'l' :: 's' :: 'e' :: []
  | .num lex => lex.data
  | .str s => dqC :: (escStr s.data ++ [dqC])
  | .arr [] => [lkC, rkC]
  | .arr (x :: xs) => lkC :: (serCh x ++ serElemsTail xs ++ [rkC])
  | .obj [] => [lbC, rbC]
  | .obj (p :: ps) => lbC :: (serMember p ++ serMembersTail ps ++ [rbC])

/-- Comma-prefixed serialization of the remaining array elements. -/
def serElemsTail : List JsonValue → List Char
  | [] => []
  | x :: xs => ',' :: (serCh x ++ serElemsTail xs)

/-- Serialization of one object member. -/
def serMember : String × JsonValue → List Char
  | (k, v) => dqC :: (escStr k.data ++ [dqC] ++ (':' :: serCh v))

/-- Comma-prefixed serialization of the remaining object members. -/
def serMembersTail : List (String × JsonValue) → List Char
  | [] => []
  | p :: ps => ',' :: (serMember p ++ serMembersTail ps)

end

/-- String form of the serialization. -/
def serialize (v : JsonValue) : String := String.mk (serCh v)

/-! ## The route's Strategy-1 cleanup (route.ts lines 139-151)

`cleaned = data.response`
`cleaned = cleaned.replace(/\\n/g, '\n')` (then `\\r`, `\\t`)
`cleaned = cleaned.replace(/^```(?:json|JSON)?\s*\n?/gm, '')`
`cleaned = cleaned.replace(/\n?```\s*$/gm, '')`
`cleaned = cleaned.trim()`

Each regex is modelled by a dedicated scanner with the exact ECMA-262
semantics of that pattern: global left-to-right non-overlapping matching,
multiline anchors matching at line boundaries of the original text, greedy
`\s*` with backtracking against an anchor. -/

/-- One global replace of the two-character sequence backslash-`target` by
`repl` (the JS `replace(/\\x/g, c)` calls): left-to-right, non-overlapping. -/
def replEscPair (target repl : Char) : List Char → List Char
  | [] => []
  | [c] => [c]
  | a :: b :: rest =>
    if a = bsC ∧ b = target then repl :: replEscPair target repl rest
    else a :: replEscPair target repl (b :: rest)

/-- The three sequential escape replaces of Strategy 1. -/
def jsReplaceEscapes (cs : List Char) : List Char :=
  replEscPair 't' '\t' (replEscPair 'r' '\r' (replEscPair 'n' '\n' (cs)))

theorem lengthDropWhileLe (p : Char → Bool) (l : List Char) :
    (l.dropWhile p).length ≤ l.length := by
  induction l with
  | nil => simp
  | cons a as ih =>
    by_cases h : p a
    · simp [List.dropWhile, h]; omega
    · simp [List.dropWhile, h]

theorem headMatches_length {sub cs : List Char} (h : headMatches sub cs = true) :
    sub.length ≤ cs.length := by
  induction sub generalizing cs with
  | nil => simp
  | cons a as ih =>
    match cs with
    | [] => simp [headMatches] at h
    | b :: bs =>
      simp only [headMatches, Bool.and_eq_true] at h
      have := ih h.2
      simp
      omega

/-- The `(?:json|JSON)?` option of the leading-fence pattern: greedy, exact
case forms only. -/
def fenceJsonOpt (cs : List Char) : List Char × List Char :=
  if headMatches ['j', 's', 'o', 'n'] cs then (cs.take 4, cs.drop 4)
  else if headMatches ['J', 'S', 'O', 'N'] cs then (cs.take 4, cs.drop 4)
  else ([], cs)

theorem fenceJsonOpt_snd_le (cs : List Char) : (fenceJsonOpt cs).2.length ≤ cs.length := by
  unfold fenceJsonOpt
  split
  · simp
  · split <;> simp

/-- Attempt the pattern `` ```(?:json|JSON)?\s*\n? `` at the current position:
three backticks, optionally the exact word `json` or `JSON`, then a greedy
whitespace run (`\s*` absorbs any following `\n`, so the trailing `\n?` adds
nothing).  Returns the matched span and the remainder. -/
def fenceLeadMatch (cs : List Char) : Option (List Char × List Char) :=
  if headMatches [btC, btC, btC] cs then
    let jp := fenceJsonOpt (cs.drop 3)
    some (cs.take 3 ++ jp.1 ++ jp.2.takeWhile isJsWs, jp.2.dropWhile isJsWs)
  else none

/-- Whether the character just before the next scan position is a line
terminator, i.e. whether the next position is a multiline `^` position. -/
def lastIsLineTerm (l : List Char) : Bool :=
  match l.getLast? with
  | some c => isLineTerm c
  | none => false

/-- Global multiline scan for the leading-fence pattern: at every line start,
remove a fence match; otherwise copy the character.  The boolean is whether
the current position is a line start (position 0, or just after a
LineTerminator of the original text).  The fuel argument only bounds the
recursion; every step consumes at least one character, so the caller's
`length + 1` never runs out. -/
def goLeadF : Nat → Bool → List Char → List Char
  | 0, _, cs => cs
  | _ + 1, _, [] => []
  | f + 1, ls, c :: rest =>
    if ls then
      match fenceLeadMatch (c :: rest) with
      | some mr => goLeadF f (lastIsLineTerm mr.1) mr.2
      | none => c :: goLeadF f (isLineTerm c) rest
    else c :: goLeadF f (isLineTerm c) rest

/-- The leading-fence replace of Strategy 1. -/
def stripLeadFences (cs : List Char) : List Char := goLeadF (cs.length + 1) true cs

/-- A position (identified by its suffix) where a multiline `$` matches:
end of input or just before a LineTerminator. -/
def qualPos : List Char → Bool
  | [] => true
  | c :: _ => isLineTerm c

/-- Greedy-with-backtracking `\s*$` after the backticks: the largest prefix
length `k` of the whitespace run after which `$` matches. -/
def bestWsK (after3 : List Char) : Option Nat :=
  ((List.range ((after3.takeWhile isJsWs).length + 1)).reverse).find? fun k =>
    qualPos (after3.drop k)

/-- The backtick-and-whitespace core of the trailing-fence pattern; `base` is
the number of characters consumed before the backticks (one for the optional
`\n`, else zero) plus the three backticks. -/
def trailCore (base : Nat) (cs : List Char) : Option (Nat × List Char) :=
  if headMatches [btC, btC, btC] cs then
    match bestWsK (cs.drop 3) with
    | some k => some (base + k, (cs.drop 3).drop k)
    | none => none
  else none

/-- Attempt the pattern `\n?```\s*$` at the current position (`\n?` is tried
greedily first; when the position holds a `\n` the backticks must follow it,
otherwise they must start at the position itself). -/
def matchTrailAt (cs : List Char) : Option (Nat × List Char) :=
  if headMatches ['\n'] cs then trailCore 4 (cs.drop 1)
  else if headMatches [btC] cs then trailCore 3 cs
  else none

/-- Global multiline scan for the trailing-fence pattern: remove every match,
copy everything else (fuelled like `goLeadF`). -/
def goTrailF : Nat → List Char → List Char
  | 0, cs => cs
  | _ + 1, [] => []
  | f + 1, c :: rest =>
    match matchTrailAt (c :: rest) with
    | some nr => goTrailF f nr.2
    | none => c :: goTrailF f rest

/-- The trailing-fence replace of Strategy 1. -/
def stripTrailFences (cs : List Char) : List Char := goTrailF (cs.length + 1) cs

/-- Right half of JavaScript `trim` (drops JS whitespace, including U+FEFF,
from the end). -/
def trimRight (cs : List Char) : List Char := (cs.reverse.dropWhile isJsWs).reverse

/-- JavaScript `String.prototype.trim` (whitespace set `isJsWs`); the
left-side drop is applied last so the head of the result is directly visible
as a non-whitespace character. -/
def trimChars (cs : List Char) : List Char := (trimRight cs).dropWhile isJsWs

/-- The whole Strategy-1 cleanup on character lists. -/
def cleanList (cs : List Char) : List Char :=
  trimChars (stripTrailFences (stripLeadFences (jsReplaceEscapes cs)))

/-- `cleaned` of the route: the string the parsing strategies receive. -/
def cleanResp (s : String) : String := String.mk (cleanList s.data)

/-! ## The recovery core — `parseLLMJson`

The utility `@/utils/jsonParser` is imported by the route but its source is
not part of the shipped tree; every definition in this section is modelled
from the spec (sections 3, 4.1, 4.3, 4.4, 4.5) and carries a comment saying
so.  Where the spec leaves a default open it is recorded at the definition. -/

/-- Modelled from the spec (3, ParseOptions): recognized options of the
missing `parseLLMJson` utility.  `preferFirst` has no stated default; `true`
(leftmost candidate first) is taken, and every call site in the route either
passes it explicitly or is insensitive to it. -/
structure ParseOptions where
  attemptFix : Bool := true
  maxBlocks : Nat := 5
  preferFirst : Bool := true
  allowPartial : Bool := false
deriving DecidableEq

/-- Modelled from the spec (3, RecoveredValue provenance): which strategy of
the missing orchestrator produced the value. -/
inductive Strategy : Type where
  | direct : Strategy
  | fixed : Strategy
  | extracted : Strategy
  | extractedFixed : Strategy
deriving DecidableEq

/-- Modelled from the spec (3, RecoveryResult): the sole artifact the missing
orchestrator returns. -/
structure RecoveryResult where
  value : Option JsonValue
  succeeded : Bool
  strategyUsed : Option Strategy
  originalText : String
deriving DecidableEq

/-- Modelled from the spec (4.1): strip one leading byte-order mark. -/
def specStripBOM : List Char → List Char
  | [] => []
  | c :: rest => if c = bomC then rest else c :: rest

/-- Split off the first line (and its terminating newline, if any). -/
def splitLine (cs : List Char) : List Char × List Char :=
  (cs.takeWhile fun c => c ≠ '\n', (cs.dropWhile fun c => c ≠ '\n').drop 1)

/-- Modelled from the spec (4.1): a line that is a case-insensitive
"```json" / "```" fence marker (backticks, optional `json`, whitespace). -/
def isFenceMarkerLine (l : List Char) : Bool :=
  if headMatches [btC, btC, btC] l then
    let r := l.drop 3
    let r2 := if headMatches ['j', 's', 'o', 'n'] (r.map Char.toLower) then r.drop 4 else r
    r2.all isJsWs
  else false

/-- Modelled from the spec (4.1): remove a leading fence line, matched only
at the start of the blob. -/
def specStripLeadFence (cs : List Char) : List Char :=
  let p := splitLine cs
  if isFenceMarkerLine p.1 then p.2 else cs

/-- Split off the last line (and the newline before it, if any). -/
def splitLastLine (cs : List Char) : List Char × List Char :=
  let r := cs.reverse
  (((r.dropWhile fun c => c ≠ '\n').drop 1).reverse, (r.takeWhile fun c => c ≠ '\n').reverse)

/-- Modelled from the spec (4.1): a trailing fence line (whitespace,
backticks, whitespace). -/
def isTrailFenceLine (l : List Char) : Bool :=
  let t := l.dropWhile isJsWs
  headMatches [btC, btC, btC] t && (t.drop 3).all isJsWs

/-- Modelled from the spec (4.1): remove a trailing fence line, matched only
at the end of the blob. -/
def specStripTrailFence (cs : List Char) : List Char :=
  let p := splitLastLine cs
  if isTrailFenceLine p.2 then p.1 else cs

/-- Modelled from the spec (4.1, Lexical Normalizer): BOM strip, literal
escape-sequence conversion (the same approximation the route applies, spec 9
records it as intentional), fence removal at the blob boundaries, trim. -/
def specNormalize (cs : List Char) : List Char :=
  trimChars (specStripTrailFence (specStripLeadFence (jsReplaceEscapes (specStripBOM cs))))

/-- Identifier head character, `[A-Za-z_$]`. -/
def isIdentStart (c : Char) : Bool := c.isAlpha || c = '_' || c = '$'

/-- Identifier continuation character, `[A-Za-z0-9_$]`. -/
def isIdentChar (c : Char) : Bool := c.isAlphanum || c = '_' || c = '$'

/-- Modelled from the spec (4.3): copy a double-quoted string body verbatim,
escape pairs kept, up to the closing quote; `none` when unterminated. -/
def dstrBody : List Char → Option (List Char × List Char)
  | [] => none
  | c :: rest =>
    if c = dqC then some ([], rest)
    else if c = bsC then
      match rest with
      | [] => none
      | e :: r2 => (dstrBody r2).map fun p => (c :: e :: p.1, p.2)
    else (dstrBody rest).map fun p => (c :: p.1, p.2)

/-- Modelled from the spec (4.3, rewrite 2): convert a single-quoted string
body to double-quoted form — internal double quotes escaped, escaped single
quotes unescaped; `none` when unterminated. -/
def sstrBody : List Char → Option (List Char × List Char)
  | [] => none
  | c :: rest =>
    if c = sqC then some ([], rest)
    else if c = bsC then
      match rest with
      | [] => none
      | e :: r2 =>
        if e = sqC then (sstrBody r2).map fun p => (sqC :: p.1, p.2)
        else (sstrBody r2).map fun p => (c :: e :: p.1, p.2)
    else if c = dqC then (sstrBody rest).map fun p => (bsC :: dqC :: p.1, p.2)
    else (sstrBody rest).map fun p => (c :: p.1, p.2)

/-- Rest of the input after the closing `*/` of a block comment; `none` when
unterminated. -/
def blockCommentRest : List Char → Option (List Char)
  | [] => none
  | c :: rest =>
    if c = '*' ∧ headMatches ['/'] rest then some (rest.drop 1)
    else blockCommentRest rest

/-- Skip whitespace and comments (for the trailing-comma lookahead of
rewrite 4, which ignores intervening whitespace/comments). -/
def skipWsComments : Nat → List Char → List Char
  | 0, cs => cs
  | f + 1, cs =>
    match cs with
    | [] => []
    | c :: rest =>
      if isJsWs c then skipWsComments f rest
      else if c = '/' ∧ headMatches ['/'] rest then
        skipWsComments f ((rest.drop 1).dropWhile fun x => x ≠ '\n')
      else if c = '/' ∧ headMatches ['*'] rest then
        match blockCommentRest (rest.drop 1) with
        | some r2 => skipWsComments f r2
        | none => c :: rest
      else c :: rest

/-- Modelled from the spec (4.3, Tolerant Tokenizer / Grammar Fixer): one
left-to-right scan over the state machine
outside / in-single-string / in-double-string / in-comment, applying the five
rewrites only outside strings and comments.  The boolean argument is whether
the last significant character was `{` or `,` (the unquoted-key context of
rewrite 1); unterminated strings and comments at end of input are passed
through unchanged. -/
def fixGo : Nat → Bool → List Char → List Char
  | 0, _, cs => cs
  | f + 1, prevOC, cs =>
    match cs with
    | [] => []
    | c :: rest =>
      if c = dqC then
        match dstrBody rest with
        | some p => dqC :: (p.1 ++ dqC :: fixGo f false p.2)
        | none => c :: rest
      else if c = sqC then
        match sstrBody rest with
        | some p => dqC :: (p.1 ++ dqC :: fixGo f false p.2)
        | none => c :: rest
      else if c = '/' ∧ headMatches ['/'] rest then
        fixGo f prevOC ((rest.drop 1).dropWhile fun x => x ≠ '\n')
      else if c = '/' ∧ headMatches ['*'] rest then
        match blockCommentRest (rest.drop 1) with
        | some r2 => fixGo f prevOC r2
        | none => c :: rest
      else if isIdentStart c then
        let idt := c :: rest.takeWhile isIdentChar
        let r2 := rest.dropWhile isIdentChar
        if prevOC ∧ headMatches [':'] r2 then dqC :: (idt ++ dqC :: fixGo f false r2)
        else if idt = ['T', 'r', 'u', 'e'] then 't' :: 'r' :: 'u' :: 'e' :: fixGo f false r2
        else if idt = ['F', 'a', 'l', 's', 'e'] then
          'f' :: 'a' :: 'l' :: 's' :: 'e' :: fixGo f false r2
        else if idt = ['N', 'o', 'n', 'e'] then 'n' :: 'u' :: 'l' :: 'l' :: fixGo f false r2
        else idt ++ fixGo f false r2
      else if c = ',' then
        match skipWsComments (rest.length + 1) rest with
        | c2 :: _ => if c2 = rbC ∨ c2 = rkC then fixGo f prevOC rest else c :: fixGo f true rest
        | [] => c :: fixGo f true rest
      else if c = lbC then c :: fixGo f true rest
      else if isJsWs c then c :: fixGo f prevOC rest
      else c :: fixGo f false rest

/-- Modelled from the spec (4.3): `attemptFix` on character lists (total;
worst case returns the input unchanged). -/
def fixList (cs : List Char) : List Char := fixGo (cs.length + 1) false cs

/-- Modelled from the spec (4.3): the `attemptFix(text) -> string` contract. -/
def attemptFix (s : String) : String := String.mk (fixList s.data)

/-- Modelled from the spec (4.3/4.4): the string-literal state machine of the
balanced-block extractor. -/
inductive ScanMode : Type where
  | outside : ScanMode
  | inD : ScanMode
  | inDEsc : ScanMode
  | inS : ScanMode
  | inSEsc : ScanMode
deriving DecidableEq

/-- Modelled from the spec (4.4): extractor scan state — string mode, bracket
depth (`{}`/`[]` counted together, a candidate closes when the combined depth
returns to zero), current position, opening position of the pending
candidate, and the completed spans in reverse discovery order. -/
structure ExtSt where
  mode : ScanMode
  depth : Nat
  pos : Nat
  start : Option Nat
  spans : List (Nat × Nat)
deriving DecidableEq

/-- Append a completed span when a candidate was open. -/
def pushSpan (start : Option Nat) (endPos : Nat) (spans : List (Nat × Nat)) :
    List (Nat × Nat) :=
  match start with
  | some s0 => (s0, endPos) :: spans
  | none => spans

/-- Modelled from the spec (4.4): one scanner step.  Inside a string literal
only a backslash or the matching quote changes anything; brackets inside
string literals never affect depth. -/
def extractStep (st : ExtSt) (c : Char) : ExtSt :=
  match st.mode with
  | ScanMode.inD =>
    if c = bsC then { st with mode := ScanMode.inDEsc, pos := st.pos + 1 }
    else if c = dqC then { st with mode := ScanMode.outside, pos := st.pos + 1 }
    else { st with pos := st.pos + 1 }
  | ScanMode.inDEsc => { st with mode := ScanMode.inD, pos := st.pos + 1 }
  | ScanMode.inS =>
    if c = bsC then { st with mode := ScanMode.inSEsc, pos := st.pos + 1 }
    else if c = sqC then { st with mode := ScanMode.outside, pos := st.pos + 1 }
    else { st with pos := st.pos + 1 }
  | ScanMode.inSEsc => { st with mode := ScanMode.inS, pos := st.pos + 1 }
  | ScanMode.outside =>
    if c = dqC then { st with mode := ScanMode.inD, pos := st.pos + 1 }
    else if c = sqC then { st with mode := ScanMode.inS, pos := st.pos + 1 }
    else if c = lbC ∨ c = lkC then
      { st with
        depth := st.depth + 1,
        start := if st.depth = 0 then some st.pos else st.start,
        pos := st.pos + 1 }
    else if c = rbC ∨ c = rkC then
      if st.depth = 1 then
        { st with
          depth := 0, start := none, pos := st.pos + 1,
          spans := pushSpan st.start (st.pos + 1) st.spans }
      else if st.depth = 0 then { st with pos := st.pos + 1 }
      else { st with depth := st.depth - 1, pos := st.pos + 1 }
    else { st with pos := st.pos + 1 }

/-- The initial extractor state. -/
def extInit : ExtSt := ⟨ScanMode.outside, 0, 0, none, []⟩

/-- Modelled from the spec (4.4): `extractCandidates` — balanced-block spans
in left-to-right discovery order (an unterminated block emits nothing). -/
def extractCandidates (cs : List Char) : List (Nat × Nat) :=
  (cs.foldl extractStep extInit).spans.reverse

/-- Length of a candidate span. -/
def spanLen (p : Nat × Nat) : Nat := p.2 - p.1

/-- Stable insertion by descending length (ties keep discovery order). -/
def insertByLen (p : Nat × Nat) : List (Nat × Nat) → List (Nat × Nat)
  | [] => [p]
  | q :: qs => if spanLen q < spanLen p then p :: q :: qs else q :: insertByLen p qs

/-- Modelled from the spec (4.4): candidate re-ranking when `preferFirst` is
false — descending substring length, ties broken left-to-right. -/
def sortByLenDesc : List (Nat × Nat) → List (Nat × Nat)
  | [] => []
  | p :: ps => insertByLen p (sortByLenDesc ps)

/-- The substring of a candidate span. -/
def sliceL (cs : List Char) (p : Nat × Nat) : List Char := (cs.drop p.1).take (p.2 - p.1)

/-- Only whitespace remains at or after position `e` (the trailing-garbage
check of spec 4.5 step 5). -/
def allWsAfter (cs : List Char) (e : Nat) : Bool := (cs.drop e).all isJsWs

/-- Prefix parse: one value, arbitrary trailing text (the `allowPartial`
acceptance of spec 4.5 step 5). -/
def parsePrefixL (cs : List Char) : Option JsonValue :=
  (parseVal (2 * cs.length + 2) cs).map Prod.fst

/-- Whole-text parse under the partial-acceptance option. -/
def parseWith (allowPartial : Bool) (cs : List Char) : Option JsonValue :=
  if allowPartial then parsePrefixL cs else parseStrictL cs

/-- Modelled from the spec (4.5 step 4): try one candidate — strict parse,
then fix-and-parse if `attemptFix`; a success whose span leaves non-whitespace
trailing text is rejected unless `allowPartial`. -/
def tryCandidate (t : List Char) (opts : ParseOptions) (p : Nat × Nat) :
    Option (JsonValue × Strategy) :=
  let sub := sliceL t p
  let ok := opts.allowPartial || allWsAfter t p.2
  match parseStrictL sub with
  | some v => if ok then some (v, Strategy.extracted) else none
  | none =>
    if opts.attemptFix then
      match parseStrictL (fixList sub) with
      | some v => if ok then some (v, Strategy.extractedFixed) else none
      | none => none
    else none

/-- First candidate that succeeds. -/
def firstSuccess (t : List Char) (opts : ParseOptions) :
    List (Nat × Nat) → Option (JsonValue × Strategy)
  | [] => none
  | p :: ps =>
    match tryCandidate t opts p with
    | some r => some r
    | none => firstSuccess t opts ps

/-- Modelled from the spec (4.5, Strategy Orchestrator): `recover` — the
ordered pipeline normalize → direct → fixed → extracted / extracted+fixed,
total, all failure reported through `succeeded`; `maxBlocks` is clamped to at
least 1 (spec 7). -/
def recover (raw : String) (opts : ParseOptions) : RecoveryResult :=
  let t := specNormalize raw.data
  match parseWith opts.allowPartial t with
  | some v => ⟨some v, true, some Strategy.direct, raw⟩
  | none =>
    match (if opts.attemptFix then parseWith opts.allowPartial (fixList t) else none) with
    | some v => ⟨some v, true, some Strategy.fixed, raw⟩
    | none =>
      let cands := extractCandidates t
      let ordered := if opts.preferFirst then cands else sortByLenDesc cands
      match firstSuccess t opts (ordered.take (max 1 opts.maxBlocks)) with
      | some r => ⟨some r.1, true, some r.2, raw⟩
      | none => ⟨none, false, none, raw⟩

/-- Default options (spec 3: `attemptFix` true, `maxBlocks` 5, `allowPartial`
false; `preferFirst` taken as true, see `ParseOptions`). -/
def defaultOptions : ParseOptions := ⟨true, 5, true, false⟩

/-- Modelled from the spec: the missing `parseLLMJson` utility as the route
consumes it — the recovered value, or a falsy result (`none`) on failure. -/
def parseLLMJson (s : String) (opts : ParseOptions) : Option JsonValue :=
  (recover s opts).value

/-! ## The route's bulletproof parsing block (route.ts lines 133-238)

For a string agent reply `resp` (`data.response`), the block computes
`parsedResponse` by the strategy cascade, then the `_parse_succeeded` and
`_has_valid_data` meta fields and the response envelope.  Exceptions inside
the cascade are `Option` failures; the one reachable exception outside the
inner try (a `TypeError` from `parsedResponse.error?.includes` when `error`
holds a value with no `includes` method) is modelled as `none` from
`parseSucceededM`, which in the real route becomes the 500 handler. -/

/-- The option object the route passes at Strategy 3 (line 163). -/
def routeOptions : ParseOptions := ⟨true, 5, true, false⟩

/-- The option object of Strategy 5 (line 185): `attemptFix` explicit, all
other options at their defaults. -/
def lastResortOptions : ParseOptions := ⟨true, 5, true, false⟩

/-- Prefix of `l` up to and including the last occurrence of `t`. -/
def takeThruLast (t : Char) (l : List Char) : List Char :=
  (l.reverse.dropWhile fun c => c ≠ t).reverse

/-- The Strategy-4 extraction regex `/\{[\s\S]*\}|\[[\s\S]*\]/` (line 175):
leftmost start wins, the brace alternative is tried first at each position,
and `[\s\S]*` is greedy, so the match runs to the last closing character of
the winning alternative.  This regex is deliberately not string-aware. -/
def strat4Go : List Char → Option (List Char)
  | [] => none
  | c :: rest =>
    if c = lbC ∧ rest.any fun x => x = rbC then some (c :: takeThruLast rbC rest)
    else if c = lkC ∧ rest.any fun x => x = rkC then some (c :: takeThruLast rkC rest)
    else strat4Go rest

/-- `cleaned.match(...)` of Strategy 4. -/
def strat4Match (s : String) : Option (List Char) := strat4Go s.data

/-- Strategies 4 and 5 (lines 174-195): extract by regex, `JSON.parse` the
match, then `parseLLMJson` on the match as last resort; each result is
adopted only when it is a non-null object/array, otherwise the original
reply is kept. -/
def strat45 (resp : String) (cleaned : String) : JsonValue :=
  match strat4Match cleaned with
  | none => JsonValue.str resp
  | some sub =>
    match parseStrictL sub with
    | some v => if v.objLike then v else JsonValue.str resp
    | none =>
      match parseLLMJson (String.mk sub) lastResortOptions with
      | some v => if v.objLike then v else JsonValue.str resp
      | none => JsonValue.str resp

/-- `parsedResponse` for a string reply (lines 134-201): Strategy 1 cleanup,
then direct `JSON.parse` (success short-circuits the cascade even when the
value is not adopted), then `parseLLMJson`, then Strategies 4-5. -/
def parsedResponse (resp : String) : JsonValue :=
  match parseStrict (cleanResp resp) with
  | some v => if v.objLike then v else JsonValue.str resp
  | none =>
    match parseLLMJson (cleanResp resp) routeOptions with
    | some v => if v.objLike then v else strat45 resp (cleanResp resp)
    | none => strat45 resp (cleanResp resp)

/-- `parsedResponse.error?.includes('JSON') || parsedResponse.error?.includes('parse')`
(line 213): `some b` is the boolean outcome, `none` the `TypeError` thrown
when `error` is a number, boolean or object (no `includes`); a missing or
`null` `error` short-circuits to `undefined`, which is falsy, and an array
`error` uses `Array.prototype.includes`. -/
def errorMentionsParse (v : JsonValue) : Option Bool :=
  match v.getField "error" with
  | none => some false
  | some (JsonValue.str s) => some (containsSub s "JSON" || containsSub s "parse")
  | some JsonValue.null => some false
  | some (JsonValue.arr xs) =>
      some ((xs.any fun x => x = JsonValue.str "JSON") ||
            (xs.any fun x => x = JsonValue.str "parse"))
  | some _ => none

/-- `parseSucceeded` (lines 209-214): false exactly when the final value is
an object whose `success` is `false` and whose `error` mentions JSON/parse;
`none` models the `TypeError` path (which the outer handler turns into a
500 response). -/
def parseSucceededM (resp : String) : Option Bool :=
  if (parsedResponse resp).objLike ∧
      (parsedResponse resp).getField "success" = some (JsonValue.bool false) then
    (errorMentionsParse (parsedResponse resp)).map fun b => !b
  else some true

/-- The `response` field the endpoint returns (lines 216-223): the parsed
value, augmented in place with `raw_response` when `parseSucceeded` is
false. -/
def finalResponse (resp : String) : JsonValue :=
  match parseSucceededM resp with
  | some false => (parsedResponse resp).addField "raw_response" (JsonValue.str resp)
  | _ => parsedResponse resp

/-- Truthiness of an optionally-present field (`p?.k` in a boolean
context). -/
def truthyField (p : JsonValue) (k : String) : Bool :=
  match p.getField k with
  | some v => v.truthy
  | none => false

/-- `_has_valid_data` (lines 231-237) for a string reply. -/
def hasValidData (p : JsonValue) (resp : String) : Bool :=
  truthyField p "result" || truthyField p "answer" || truthyField p "message" ||
  truthyField p "data" || decide (resp.length > 0)

/-- The success envelope of the endpoint (lines 221-238) restricted to the
fields the recovery block determines; `timestamp` carries the wall-clock
value `now` supplied by the environment (`new Date().toISOString()`), the
only environment-dependent field. -/
structure Envelope where
  success : Bool
  response : JsonValue
  raw_response : String
  timestamp : Nat
  parse_succeeded : Bool
  has_valid_data : Bool
deriving DecidableEq

/-- Build the envelope for a string reply at wall-clock time `now`; `none`
models the `TypeError` path that ends in the 500 handler instead. -/
def buildEnvelope (now : Nat) (resp : String) : Option Envelope :=
  match parseSucceededM resp with
  | none => none
  | some flag =>
    some ⟨true, finalResponse resp, resp, now, flag, hasValidData (finalResponse resp) resp⟩

/-- The strategy outcome `o` failed to produce an adoptable value: either it
failed outright or its value is not a non-null object/array. -/
def failsToObject (o : Option JsonValue) : Bool :=
  match o with
  | some v => !v.objLike
  | none => true

/-- Every recovery strategy of the route fails to produce an object on reply
`resp`: direct parse (2), advanced parse (3), extraction (4) and last-resort
parse (5) — each checked unconditionally, as the claim states them. -/
def strat1to5Fail (resp : String) : Bool :=
  failsToObject (parseStrict (cleanResp resp)) &&
  failsToObject (parseLLMJson (cleanResp resp) routeOptions) &&
  (match strat4Match (cleanResp resp) with
   | none => true
   | some sub =>
     failsToObject (parseStrictL sub) &&
     failsToObject (parseLLMJson (String.mk sub) lastResortOptions))

/-! ## Request validation (route.ts lines 78-118) — for claim C10

`JSVal` models the JSON-decoded request-body values; `Except.error` is an
early JSON response (status, `success` flag) produced before the upstream
`fetch`, `Except.ok` the message/agent pair that would be sent upstream. -/

/-- A JavaScript value as it can appear in the decoded request body. -/
inductive JSVal : Type where
  | undef : JSVal
  | jsNull : JSVal
  | jsBool : Bool → JSVal
  | jsNum : Int → JSVal
  | jsStr : String → JSVal
  | jsArr : List JSVal → JSVal
  | jsObj : List (String × JSVal) → JSVal

mutual

/-- `JSON.stringify` conversion of a body value: `undefined` vanishes
(`none`), object fields with `undefined` values are dropped, array holes
become `null`. -/
def toJson : JSVal → Option JsonValue
  | JSVal.undef => none
  | JSVal.jsNull => some JsonValue.null
  | JSVal.jsBool b => some (JsonValue.bool b)
  | JSVal.jsNum n => some (JsonValue.num (toString n))
  | JSVal.jsStr s => some (JsonValue.str s)
  | JSVal.jsArr xs => some (JsonValue.arr (toJsonArr xs))
  | JSVal.jsObj fs => some (JsonValue.obj (toJsonFields fs))

/-- Array elements under `JSON.stringify`. -/
def toJsonArr : List JSVal → List JsonValue
  | [] => []
  | x :: xs => (toJson x).getD JsonValue.null :: toJsonArr xs

/-- Object fields under `JSON.stringify`. -/
def toJsonFields : List (String × JSVal) → List (String × JsonValue)
  | [] => []
  | (k, v) :: fs =>
    match toJson v with
    | some j => (k, j) :: toJsonFields fs
    | none => toJsonFields fs

end

/-- `String(x)` for the values the route can pass to it. -/
def jsToString : JSVal → String
  | JSVal.jsStr s => s
  | JSVal.jsNum n => toString n
  | JSVal.jsBool true => "true"
  | JSVal.jsBool false => "false"
  | JSVal.jsNull => "null"
  | JSVal.undef => "undefined"
  | JSVal.jsArr _ => ""
  | JSVal.jsObj _ => "[object Object]"

/-- JavaScript truthiness of a body value. -/
def truthyJS : JSVal → Bool
  | JSVal.undef => false
  | JSVal.jsNull => false
  | JSVal.jsBool b => b
  | JSVal.jsNum n => decide (n ≠ 0)
  | JSVal.jsStr s => decide (s ≠ "")
  | JSVal.jsArr _ => true
  | JSVal.jsObj _ => true

/-- The message coercion (lines 83-94): truthy objects are
`JSON.stringify`'d, other non-string non-null non-undefined values go
through `String(...)`, strings and null/undefined are untouched. -/
def coerceMessage : JSVal → JSVal
  | JSVal.jsObj fs => JSVal.jsStr (serialize ((toJson (JSVal.jsObj fs)).getD JsonValue.null))
  | JSVal.jsArr xs => JSVal.jsStr (serialize ((toJson (JSVal.jsArr xs)).getD JsonValue.null))
  | JSVal.jsNum n => JSVal.jsStr (jsToString (JSVal.jsNum n))
  | JSVal.jsBool b => JSVal.jsStr (jsToString (JSVal.jsBool b))
  | m => m

/-- Lines 96-118 up to the upstream call: coerce the message, reject with a
400 `success: false` JSON response when the coerced message or the agent id
is falsy, otherwise hand the pair to the payload builder for the upstream
`fetch`. -/
def routeValidate (message agentId : JSVal) : Except (Nat × Bool) (String × JSVal) :=
  if truthyJS (coerceMessage message) ∧ truthyJS agentId then
    Except.ok (jsToString (coerceMessage message), agentId)
  else Except.error (400, false)

/-! ## General facts about the route block -/

theorem strat45_cases (resp cleaned : String) :
    strat45 resp cleaned = JsonValue.str resp ∨ (strat45 resp cleaned).objLike = true := by
  unfold strat45
  split
  · exact Or.inl rfl
  · split
    · split
      · exact Or.inr (by assumption)
      · exact Or.inl rfl
    · split
      · split
        · exact Or.inr (by assumption)
        · exact Or.inl rfl
      · exact Or.inl rfl

theorem parsedResponse_cases (resp : String) :
    parsedResponse resp = JsonValue.str resp ∨ (parsedResponse resp).objLike = true := by
  unfold parsedResponse
  split
  · split
    · exact Or.inr (by assumption)
    · exact Or.inl rfl
  · split
    · split
      · exact Or.inr (by assumption)
      · exact strat45_cases resp _
    · exact strat45_cases resp _

theorem addField_objLike (v : JsonValue) (k : String) (w : JsonValue)
    (h : v.objLike = true) : (v.addField k w).objLike = true := by
  match v with
  | JsonValue.obj fs =>
    unfold JsonValue.addField
    split <;> (split <;> rfl)
  | JsonValue.arr xs => rfl
  | JsonValue.null => simp [JsonValue.objLike] at h
  | JsonValue.bool _ => simp [JsonValue.objLike] at h
  | JsonValue.num _ => simp [JsonValue.objLike] at h
  | JsonValue.str _ => simp [JsonValue.objLike] at h

theorem parseSucceededM_false_objLike {resp : String}
    (h : parseSucceededM resp = some false) : (parsedResponse resp).objLike = true := by
  unfold parseSucceededM at h
  split at h
  · exact (by assumption : _ ∧ _).1
  · simp at h

theorem finalResponse_of_true {resp : String} (h : parseSucceededM resp = some true) :
    finalResponse resp = parsedResponse resp := by
  unfold finalResponse
  rw [h]

theorem parseSucceededM_of_str {resp : String}
    (h : parsedResponse resp = JsonValue.str resp) : parseSucceededM resp = some true := by
  unfold parseSucceededM
  rw [h]
  simp [JsonValue.objLike]

/-! ## Claim theorems -/

theorem dropWhile_head_not {p : Char → Bool} {l : List Char} {c : Char}
    (h : (l.dropWhile p).head? = some c) : p c = false := by
  induction l with
  | nil => simp [List.dropWhile] at h
  | cons a as ih =>
    by_cases hp : p a
    · rw [List.dropWhile_cons_of_pos hp] at h
      exact ih h
    · rw [List.dropWhile_cons_of_neg hp] at h
      simp at h
      rw [h] at hp
      exact Bool.eq_false_iff.mpr hp

/-- C7: the route's normalization strips a leading byte-order mark — for every
reply text beginning with U+FEFF, the cleaned text (`cleanResp`, the
Strategy-1 cleanup ending in `trim`, whose JavaScript whitespace set contains
U+FEFF) does not begin with that character. -/
theorem c7_bom_stripped (t : String) (h : t.data.head? = some bomC) :
    ¬ (cleanResp t).data.head? = some bomC := by
  intro hc
  have hws : isJsWs bomC = false := dropWhile_head_not (l := trimRight
    (stripTrailFences (stripLeadFences (jsReplaceEscapes t.data)))) hc
  exact absurd hws (by decide)

/-- C7 witness: a BOM-prefixed object reply, evaluated. -/
theorem c7_bom_stripped_witness :
    ("﻿\x7b\x7d" : String).data.head? = some bomC ∧
    ¬ (cleanResp "﻿\x7b\x7d").data.head? = some bomC :=
  ⟨by decide, c7_bom_stripped _ (by decide)⟩

/-- Timestamp-erased view of the envelope. -/
def stripTime (e : Envelope) : Envelope := { e with timestamp := 0 }

/-- C8: determinism — the recovery block depends only on the reply text; two
runs at different wall-clock times agree on every envelope field except the
caller-attached `timestamp` (and the recovery pipeline itself takes no
environment at all). -/
theorem c8_deterministic (n₁ n₂ : Nat) (resp : String) :
    (buildEnvelope n₁ resp).map stripTime = (buildEnvelope n₂ resp).map stripTime := by
  unfold buildEnvelope
  cases parseSucceededM resp <;> simp [stripTime]

/-- C9: output-type invariant — for every string reply, the `response` field
is either exactly the original reply string or a non-null object/array; no
strategy adopts a scalar or `null`, and parse failures leave the original
string in place. -/
theorem c9_response_type_invariant (resp : String) :
    finalResponse resp = JsonValue.str resp ∨ (finalResponse resp).objLike = true := by
  unfold finalResponse
  split
  · exact Or.inr (addField_objLike _ _ _ (parseSucceededM_false_objLike (by assumption)))
  · exact parsedResponse_cases resp

/-- C10: when, after coercion, the message is missing/empty or the agent id is
falsy, the endpoint answers 400 with `success: false` before any upstream
call (`Except.error` is the early return; only `Except.ok` reaches the
upstream `fetch`). -/
theorem c10_validation_rejects (message agentId : JSVal)
    (h : truthyJS (coerceMessage message) = false ∨ truthyJS agentId = false) :
    routeValidate message agentId = Except.error (400, false) := by
  unfold routeValidate
  split
  · exfalso
    rename_i hc
    rcases h with h | h
    · rw [h] at hc
      exact Bool.false_ne_true hc.1
    · rw [h] at hc
      exact Bool.false_ne_true hc.2
  · rfl

/-- C10 witness: an empty message with a present agent id is rejected. -/
theorem c10_validation_rejects_witness :
    truthyJS (coerceMessage (JSVal.jsStr "")) = false ∧
    routeValidate (JSVal.jsStr "") (JSVal.jsStr "agent-1") = Except.error (400, false) :=
  ⟨by decide, c10_validation_rejects _ _ (Or.inl (by decide))⟩

/-- C1 (amended): when every recovery strategy fails to produce an object on
a string reply, the original text is preserved untouched as the response and
no recovered value is produced — but the endpoint's parse flag
`_parse_succeeded` is `true`, not `false`; the flag is `false` only when the
final value is an object with `success = false` and an `error` mentioning
"JSON" or "parse". -/
theorem c1_all_strategies_fail (resp : String) (h : strat1to5Fail resp = true) :
    parsedResponse resp = JsonValue.str resp ∧ parseSucceededM resp = some true := by
  unfold strat1to5Fail at h
  simp only [Bool.and_eq_true] at h
  obtain ⟨⟨h1, h2⟩, h3⟩ := h
  have hp : parsedResponse resp = JsonValue.str resp := by
    unfold parsedResponse
    split
    · rename_i v hv
      rw [hv] at h1
      unfold failsToObject at h1
      simp at h1
      simp [h1]
    · have h45 : strat45 resp (cleanResp resp) = JsonValue.str resp := by
        unfold strat45
        split
        · rfl
        · rename_i sub hsub
          rw [hsub] at h3
          simp only [Bool.and_eq_true] at h3
          obtain ⟨h4, h5⟩ := h3
          split
          · rename_i v hv
            rw [hv] at h4
            unfold failsToObject at h4
            simp at h4
            simp [h4]
          · split
            · rename_i v hv
              rw [hv] at h5
              unfold failsToObject at h5
              simp at h5
              simp [h5]
            · rfl
      split
      · rename_i v hv
        rw [hv] at h2
        unfold failsToObject at h2
        simp at h2
        simp [h2, h45]
      · exact h45
  exact ⟨hp, parseSucceededM_of_str hp⟩

/-- The plain-text reply of spec scenario 5. -/
def plainText : String := "plain text, no structure here"

/-- C1 counterexample: on a reply where every strategy fails, the claim says
the parse flag is `false`; the route computes `true` (the original text is
kept, so the flag's object-shaped failure heuristic never fires). -/
theorem c1_flag_counterexample :
    strat1to5Fail plainText = true ∧ parseSucceededM plainText ≠ some false := by
  constructor
  · decide
  · decide

/-- C1 witness: the amended statement evaluated on the plain-text reply. -/
theorem c1_all_strategies_fail_witness :
    strat1to5Fail plainText = true ∧
    parsedResponse plainText = JsonValue.str plainText ∧
    parseSucceededM plainText = some true :=
  ⟨by decide, (c1_all_strategies_fail plainText (by decide)).1,
    (c1_all_strategies_fail plainText (by decide)).2⟩

/-- C2 (amended): a reply whose cleaned form is strict JSON for a scalar
(string, number, boolean or null) is parsed by the direct strategy but not
adopted — the route keeps the original reply text as the response; only
non-null objects and arrays ever replace it. -/
theorem c2_scalar_not_adopted (resp : String) (v : JsonValue)
    (h : parseStrict (cleanResp resp) = some v) (hv : v.objLike = false) :
    parsedResponse resp = JsonValue.str resp := by
  unfold parsedResponse
  rw [h]
  simp [hv]

/-- C2 counterexample: the reply `"42"` cleans to strict JSON for the scalar
42, yet recovery does not return that scalar — the response stays the
original text. -/
theorem c2_scalar_counterexample :
    parseStrict (cleanResp "42") = some (JsonValue.num "42") ∧
    parsedResponse "42" = JsonValue.str "42" ∧
    JsonValue.str "42" ≠ JsonValue.num "42" := by
  refine ⟨by decide, by decide, by decide⟩

/-- C2 witness: the amended statement evaluated on a boolean scalar reply. -/
theorem c2_scalar_not_adopted_witness :
    parseStrict (cleanResp "true") = some (JsonValue.bool true) ∧
    parsedResponse "true" = JsonValue.str "true" :=
  ⟨by decide, c2_scalar_not_adopted "true" (JsonValue.bool true) (by decide) (by decide)⟩

/-- Reply with an embedded object and a plain `x` inside a trailing quoted
string. -/
def inStrA : String := "\x7b\"a\": \"x\"\x7d and also \"x\""

/-- The same reply with a `\x7d` (closing brace) inside that quoted string. -/
def inStrB : String := "\x7b\"a\": \"x\"\x7d and also \"\x7d\""

/-- C3 counterexample: `inStrA` and `inStrB` differ only in one character
inside a correctly quoted string literal (`x` versus a closing brace), yet
the pipeline recovers the object from `inStrA` and recovers nothing from
`inStrB` — the Strategy-4 regex `\{[\s\S]*\}` is not string-aware, so the
in-string brace moved the match end past the object and broke every
remaining strategy. -/
theorem c3_string_boundary_counterexample :
    parsedResponse inStrA = JsonValue.obj [("a", JsonValue.str "x")] ∧
    parsedResponse inStrB = JsonValue.str inStrB := by
  refine ⟨by decide, by decide⟩

/-- C3 (amended): within the string-aware scanner used by the extractor of
the recovery core (spec 4.4, strategies 3 and 5), characters read inside a
double-quoted string literal — braces, brackets, single quotes, anything but
a backslash or the closing quote — leave the scanner's string mode, bracket
depth, pending candidate and emitted spans unchanged; only the position
advances.  The end-to-end claim fails only through the route's non-string-
aware Strategy-4 regex. -/
theorem c3_in_string_neutral (st : ExtSt) (cs : List Char)
    (hm : st.mode = ScanMode.inD) (hc : ∀ c ∈ cs, c ≠ dqC ∧ c ≠ bsC) :
    (cs.foldl extractStep st).mode = ScanMode.inD ∧
    (cs.foldl extractStep st).depth = st.depth ∧
    (cs.foldl extractStep st).start = st.start ∧
    (cs.foldl extractStep st).spans = st.spans := by
  induction cs generalizing st with
  | nil => simp [hm]
  | cons c cs ih =>
    have hcc := hc c (by simp)
    have hstep : extractStep st c = { st with pos := st.pos + 1 } := by
      unfold extractStep
      rw [hm]
      simp [hcc.1, hcc.2]
    rw [List.foldl_cons, hstep]
    exact ih { st with pos := st.pos + 1 } hm fun c hmem => hc c (by simp [hmem])

/-- C3 witness: scanning a brace, a bracket and a single quote from inside a
string literal leaves depth, candidate and spans unchanged. -/
theorem c3_in_string_neutral_witness :
    (∀ c ∈ ([rbC, rkC, sqC] : List Char), c ≠ dqC ∧ c ≠ bsC) ∧
    (([rbC, rkC, sqC] : List Char).foldl extractStep
      ⟨ScanMode.inD, 1, 5, some 0, []⟩).depth = 1 :=
  ⟨by decide, (c3_in_string_neutral ⟨ScanMode.inD, 1, 5, some 0, []⟩ _ rfl (by decide)).2.1⟩

/-- C5 (amended): the envelope always carries the untouched original reply in
`raw_response`, and the surfaced `response` equals the recovered value
whenever the parse flag is `true`; but when the final value is an object
matching the parse-failure heuristic (`success = false`, `error` mentioning
JSON/parse), the route mutates that value in place by injecting a
`raw_response` field — so values are modified by default in exactly that
case, `allowPartial` notwithstanding. -/
theorem c5_no_mutation_when_flag_true (resp : String) (now : Nat) (env : Envelope)
    (h : buildEnvelope now resp = some env) :
    env.raw_response = resp ∧
    (env.parse_succeeded = true → env.response = parsedResponse resp) := by
  unfold buildEnvelope at h
  split at h
  · exact absurd h (by simp)
  · rename_i flag hflag
    simp only [Option.some.injEq] at h
    rw [← h]
    refine ⟨rfl, fun ht => ?_⟩
    have hf : flag = true := ht
    rw [hf] at hflag
    exact finalResponse_of_true hflag

/-- A reply whose parsed object matches the route's failure heuristic. -/
def heuristicReply : String := "\x7b\"success\": false, \"error\": \"JSON parse error\"\x7d"

/-- C5 counterexample: this reply is recovered successfully by the direct
strategy, yet because the recovered object matches the failure heuristic the
route injects a `raw_response` field into it before surfacing it — the
surfaced value differs from the recovered value although `allowPartial` was
never requested. -/
theorem c5_mutation_counterexample :
    parsedResponse heuristicReply =
      JsonValue.obj [("success", JsonValue.bool false),
                     ("error", JsonValue.str "JSON parse error")] ∧
    (buildEnvelope 0 heuristicReply).map Envelope.response ≠
      some (parsedResponse heuristicReply) := by
  refine ⟨by decide, by decide⟩

/-- C5 witness: the amended statement evaluated on a plain reply. -/
theorem c5_no_mutation_witness :
    buildEnvelope 3 "hello" =
      some ⟨true, JsonValue.str "hello", "hello", 3, true, true⟩ ∧
    (⟨true, JsonValue.str "hello", "hello", 3, true, true⟩ : Envelope).raw_response =
      "hello" :=
  ⟨by decide, (c5_no_mutation_when_flag_true "hello" 3 _ (by decide)).1⟩

/-! ## C6: fence stripping runs over the whole blob -/

/-- A character that cannot interact with any step of the Strategy-1 cleanup:
not a backtick, not a backslash, not JavaScript whitespace. -/
def plainChar (c : Char) : Bool := !(c == btC || c == bsC || isJsWs c)

theorem isLineTerm_isJsWs {c : Char} (h : isLineTerm c = true) : isJsWs c = true := by
  unfold isLineTerm at h
  simp only [Bool.or_eq_true, decide_eq_true_eq] at h
  rcases h with ((h | h) | h) | h <;> subst h <;> decide

theorem plainChar_parts {c : Char} (h : plainChar c = true) :
    c ≠ btC ∧ c ≠ bsC ∧ isJsWs c = false := by
  unfold plainChar at h
  simp only [Bool.not_eq_true', Bool.or_eq_false_iff, beq_eq_false_iff_ne, ne_eq] at h
  exact ⟨h.1.1, h.1.2, h.2⟩

theorem plainChar_not_lt {c : Char} (h : plainChar c = true) : isLineTerm c = false := by
  cases hlt : isLineTerm c
  · rfl
  · have hws := isLineTerm_isJsWs hlt
    rw [(plainChar_parts h).2.2] at hws
    exact absurd hws (by simp)

theorem replEscPair_id (t r : Char) :
    ∀ cs : List Char, (∀ c ∈ cs, c ≠ bsC) → replEscPair t r cs = cs
  | [], _ => rfl
  | [_], _ => rfl
  | a :: b :: rest, h => by
    have ha : a ≠ bsC := h a (by simp)
    unfold replEscPair
    rw [if_neg fun hab => ha hab.1]
    rw [replEscPair_id t r (b :: rest) fun c hc => h c (List.mem_cons_of_mem a hc)]

theorem jsReplaceEscapes_id {cs : List Char} (h : ∀ c ∈ cs, c ≠ bsC) :
    jsReplaceEscapes cs = cs := by
  unfold jsReplaceEscapes
  rw [replEscPair_id _ _ cs h, replEscPair_id _ _ cs h, replEscPair_id _ _ cs h]

theorem headMatches_head {x : Char} {xs l : List Char} (h : headMatches (x :: xs) l = true) :
    ∃ t, l = x :: t := by
  match l with
  | [] => simp [headMatches] at h
  | b :: bs =>
    simp only [headMatches, Bool.and_eq_true, decide_eq_true_eq] at h
    exact ⟨bs, by rw [h.1]⟩

theorem fenceLeadMatch_none {c : Char} {rest : List Char} (h : c ≠ btC) :
    fenceLeadMatch (c :: rest) = none := by
  have hh : ¬ (headMatches [btC, btC, btC] (c :: rest) = true) := by
    intro hm
    obtain ⟨t, ht⟩ := headMatches_head hm
    injection ht with h1 _
    exact h h1
  unfold fenceLeadMatch
  rw [if_neg hh]

theorem goLeadF_nil (f : Nat) (ls : Bool) : goLeadF f ls [] = [] := by
  cases f <;> rfl

theorem goLeadF_cons_match {f : Nat} {c : Char} {rest m r : List Char}
    (hm : fenceLeadMatch (c :: rest) = some (m, r)) :
    goLeadF (f + 1) true (c :: rest) = goLeadF f (lastIsLineTerm m) r := by
  show (match fenceLeadMatch (c :: rest) with
        | some mr => goLeadF f (lastIsLineTerm mr.1) mr.2
        | none => c :: goLeadF f (isLineTerm c) rest) =
      goLeadF f (lastIsLineTerm m) r
  rw [hm]

theorem goLeadF_cons_plain {c : Char} (hc : c ≠ btC) (f : Nat) (ls : Bool)
    (rest : List Char) :
    goLeadF (f + 1) ls (c :: rest) = c :: goLeadF f (isLineTerm c) rest := by
  cases ls
  · rfl
  · show (match fenceLeadMatch (c :: rest) with
          | some mr => goLeadF f (lastIsLineTerm mr.1) mr.2
          | none => c :: goLeadF f (isLineTerm c) rest) =
        c :: goLeadF f (isLineTerm c) rest
    rw [fenceLeadMatch_none hc]

theorem goLeadF_append_plain :
    ∀ (a : List Char), (∀ c ∈ a, plainChar c = true) →
      ∀ (f : Nat) (rest : List Char) (ls : Bool),
        goLeadF (a.length + f) ls (a ++ rest) =
          a ++ goLeadF f (if a.isEmpty then ls else false) rest
  | [], _, f, rest, ls => by simp
  | c :: a', h, f, rest, ls => by
    have hp := h c (by simp)
    have hlen : (c :: a').length + f = (a'.length + f) + 1 := by simp; omega
    rw [hlen, List.cons_append, goLeadF_cons_plain (plainChar_parts hp).1,
      plainChar_not_lt hp,
      goLeadF_append_plain a' (fun x hx => h x (by simp [hx])) f rest false]
    simp

theorem goLeadF_fence (f : Nat) (b0 : Char) (b' : List Char) (hb0 : isJsWs b0 = false) :
    goLeadF (f + 1) true (btC :: btC :: btC :: '\n' :: b0 :: b') =
      goLeadF f true (b0 :: b') := by
  have htw : List.takeWhile isJsWs ('\n' :: b0 :: b') = ['\n'] := by
    rw [List.takeWhile_cons_of_pos (by decide), List.takeWhile_cons_of_neg (by simp [hb0])]
  have hdw : List.dropWhile isJsWs ('\n' :: b0 :: b') = b0 :: b' := by
    rw [List.dropWhile_cons_of_pos (by decide), List.dropWhile_cons_of_neg (by simp [hb0])]
  have hj : fenceJsonOpt ('\n' :: b0 :: b') = ([], '\n' :: b0 :: b') := by
    unfold fenceJsonOpt
    rw [if_neg (by simp [headMatches]), if_neg (by simp [headMatches])]
  have hm : fenceLeadMatch (btC :: btC :: btC :: '\n' :: b0 :: b') =
      some ([btC, btC, btC, '\n'], b0 :: b') := by
    unfold fenceLeadMatch
    rw [if_pos (by simp [headMatches])]
    have hdrop : (btC :: btC :: btC :: '\n' :: b0 :: b').drop 3 = '\n' :: b0 :: b' := rfl
    rw [hdrop, hj]
    simp [htw, hdw]
  rw [goLeadF_cons_match hm]
  have hl : lastIsLineTerm [btC, btC, btC, '\n'] = true := by decide
  rw [hl]

theorem matchTrailAt_none_no_bt {cs : List Char} (h : ∀ c ∈ cs, c ≠ btC) :
    matchTrailAt cs = none := by
  have hcore : ∀ (base : Nat) (l : List Char), (∀ c ∈ l, c ≠ btC) →
      trailCore base l = none := by
    intro base l hl
    have hh : ¬ (headMatches [btC, btC, btC] l = true) := by
      intro hm
      obtain ⟨t, ht⟩ := headMatches_head hm
      exact hl btC (by rw [ht]; simp) rfl
    unfold trailCore
    rw [if_neg hh]
  unfold matchTrailAt
  split
  · exact hcore 4 (cs.drop 1) fun c hc => h c (List.mem_of_mem_drop hc)
  · split
    · rename_i hbt
      obtain ⟨t, ht⟩ := headMatches_head hbt
      exact absurd rfl (h btC (by rw [ht]; simp))
    · rfl

theorem goTrailF_id : ∀ (f : Nat) (cs : List Char), (∀ c ∈ cs, c ≠ btC) →
    goTrailF f cs = cs
  | 0, _, _ => rfl
  | _ + 1, [], _ => rfl
  | f + 1, c :: rest, h => by
    show (match matchTrailAt (c :: rest) with
          | some nr => goTrailF f nr.2
          | none => c :: goTrailF f rest) = c :: rest
    rw [matchTrailAt_none_no_bt h]
    show c :: goTrailF f rest = c :: rest
    rw [goTrailF_id f rest fun x hx => h x (by simp [hx])]

theorem trimChars_id {cs : List Char}
    (h1 : ∀ c, cs.head? = some c → isJsWs c = false)
    (h2 : ∀ c, cs.getLast? = some c → isJsWs c = false) : trimChars cs = cs := by
  have hr : cs.reverse.dropWhile isJsWs = cs.reverse := by
    cases hcs : cs.reverse with
    | nil => rfl
    | cons x xs =>
      have hx : isJsWs x = false := by
        apply h2
        rw [← List.head?_reverse, hcs]
        rfl
      rw [List.dropWhile_cons_of_neg (by simp [hx])]
  unfold trimChars trimRight
  rw [hr, List.reverse_reverse]
  cases hcs2 : cs with
  | nil => rfl
  | cons y ys =>
    have hy : isJsWs y = false := h1 y (by rw [hcs2]; rfl)
    rw [List.dropWhile_cons_of_neg (by simp [hy])]

/-- C6 (amended): the fence-removal regexes carry the `g` and `m` flags, so
fence markers are matched at every line boundary of the blob, not only at its
start and end: a line consisting of three backticks in the middle of the body
is removed by the cleanup (here for bodies of characters inert to the other
cleanup steps). -/
theorem c6_interior_fence_removed (a b : List Char) (ha : a ≠ []) (hb : b ≠ [])
    (hpa : ∀ c ∈ a, plainChar c = true) (hpb : ∀ c ∈ b, plainChar c = true) :
    cleanList (a ++ '\n' :: btC :: btC :: btC :: '\n' :: b) = a ++ '\n' :: b := by
  obtain ⟨b0, b', rfl⟩ : ∃ b0 b', b = b0 :: b' := by
    cases b with
    | nil => exact absurd rfl hb
    | cons x xs => exact ⟨x, xs, rfl⟩
  obtain ⟨a0, a', rfl⟩ : ∃ a0 a', a = a0 :: a' := by
    cases a with
    | nil => exact absurd rfl ha
    | cons x xs => exact ⟨x, xs, rfl⟩
  have hesc : jsReplaceEscapes ((a0 :: a') ++ '\n' :: btC :: btC :: btC :: '\n' :: b0 :: b') =
      (a0 :: a') ++ '\n' :: btC :: btC :: btC :: '\n' :: b0 :: b' := by
    apply jsReplaceEscapes_id
    intro c hc
    rw [List.mem_append] at hc
    rcases hc with hc | hc
    · exact (plainChar_parts (hpa c hc)).2.1
    · simp only [List.mem_cons] at hc
      rcases hc with hc | hc | hc | hc | hc | hc
      · subst hc; decide
      · subst hc; decide
      · subst hc; decide
      · subst hc; decide
      · subst hc; decide
      · exact (plainChar_parts (hpb c (List.mem_cons.mpr hc))).2.1
  have hb0ws : isJsWs b0 = false := (plainChar_parts (hpb b0 (by simp))).2.2
  have h5 : goLeadF ((b0 :: b').length + 4) true (b0 :: b') = b0 :: b' := by
    have h5a := goLeadF_append_plain (b0 :: b') hpb 4 [] true
    simp only [List.append_nil, goLeadF_nil] at h5a
    simpa using h5a
  have hlead : stripLeadFences ((a0 :: a') ++ '\n' :: btC :: btC :: btC :: '\n' :: b0 :: b') =
      (a0 :: a') ++ '\n' :: b0 :: b' := by
    unfold stripLeadFences
    have hlen : ((a0 :: a') ++ '\n' :: btC :: btC :: btC :: '\n' :: b0 :: b').length + 1 =
        (a0 :: a').length + (b'.length + 7) := by
      simp
      omega
    rw [hlen, goLeadF_append_plain (a0 :: a') hpa (b'.length + 7) _ true]
    rw [if_neg (by simp)]
    have h1 : b'.length + 7 = (b'.length + 6) + 1 := by omega
    rw [h1, goLeadF_cons_plain (by decide) (b'.length + 6) false
      (btC :: btC :: btC :: '\n' :: b0 :: b')]
    have h3 : isLineTerm '\n' = true := by decide
    rw [h3]
    have h2 : b'.length + 6 = (b'.length + 5) + 1 := by omega
    rw [h2, goLeadF_fence (b'.length + 5) b0 b' hb0ws]
    have h4 : b'.length + 5 = (b0 :: b').length + 4 := by simp
    rw [h4, h5]
  have htrail : stripTrailFences ((a0 :: a') ++ '\n' :: b0 :: b') =
      (a0 :: a') ++ '\n' :: b0 :: b' := by
    unfold stripTrailFences
    apply goTrailF_id
    intro c hc
    rw [List.mem_append] at hc
    rcases hc with hc | hc
    · exact (plainChar_parts (hpa c hc)).1
    · simp only [List.mem_cons] at hc
      rcases hc with hc | hc | hc
      · subst hc; decide
      · exact (plainChar_parts (hpb c (List.mem_cons.mpr (Or.inl hc)))).1
      · exact (plainChar_parts (hpb c (List.mem_cons.mpr (Or.inr hc)))).1
  have htrim : trimChars ((a0 :: a') ++ '\n' :: b0 :: b') =
      (a0 :: a') ++ '\n' :: b0 :: b' := by
    apply trimChars_id
    · intro c hc
      simp only [List.cons_append, List.head?_cons, Option.some.injEq] at hc
      rw [← hc]
      exact (plainChar_parts (hpa a0 (by simp))).2.2
    · intro c hc
      rw [List.getLast?_append_of_ne_nil _ (by simp)] at hc
      have hc2 : ('\n' :: b0 :: b').getLast? = (b0 :: b').getLast? := by
        rw [show ('\n' :: b0 :: b' : List Char) = ['\n'] ++ b0 :: b' from rfl,
          List.getLast?_append_of_ne_nil _ (by simp)]
      rw [hc2] at hc
      exact (plainChar_parts (hpb c (List.mem_of_mem_getLast? hc))).2.2
  unfold cleanList
  rw [hesc, hlead, htrail, htrim]

/-- C6 counterexample: the fence line inside the body of `"a\n```\nb"` is not
left unchanged — the cleanup removes it. -/
theorem c6_interior_counterexample :
    cleanResp "a\n```\nb" = "a\nb" ∧ cleanResp "a\n```\nb" ≠ "a\n```\nb" := by
  refine ⟨by decide, by decide⟩

/-- C6 witness: the amended statement evaluated on one-letter bodies. -/
theorem c6_interior_fence_removed_witness :
    (∀ c ∈ (['a'] : List Char), plainChar c = true) ∧
    cleanList (['a'] ++ '\n' :: btC :: btC :: btC :: '\n' :: ['b']) =
      ['a'] ++ '\n' :: ['b'] :=
  ⟨by decide,
    c6_interior_fence_removed ['a'] ['b'] (by decide) (by decide) (by decide) (by decide)⟩

/-! ## C4: round-tripping recovered values

First the shape invariant of numeric lexemes: exactly the decompositions the
number lexer can produce. -/

/-- Shape of the integer part: `0`, or a nonzero digit followed by digits. -/
def IntOk (l : List Char) : Prop :=
  l = ['0'] ∨ ∃ c ds, l = c :: ds ∧ c.isDigit = true ∧ c ≠ '0' ∧ ∀ d ∈ ds, d.isDigit = true

/-- Shape of the fraction part: empty, or a dot and at least one digit. -/
def FracOk (l : List Char) : Prop :=
  l = [] ∨ ∃ ds, l = '.' :: ds ∧ ds ≠ [] ∧ ∀ d ∈ ds, d.isDigit = true

/-- Shape of the exponent part: empty, or `e`/`E`, an optional sign and at
least one digit. -/
def ExpOk (l : List Char) : Prop :=
  l = [] ∨ ∃ e sg ds, l = e :: (sg ++ ds) ∧ (e = 'e' ∨ e = 'E') ∧
    (sg = [] ∨ sg = ['+'] ∨ sg = ['-']) ∧ ds ≠ [] ∧ ∀ d ∈ ds, d.isDigit = true

/-- Shape of a whole numeric lexeme, per the JSON numeric grammar. -/
def NumShape (l : List Char) : Prop :=
  ∃ sg ip fp ep, l = sg ++ ip ++ fp ++ ep ∧ (sg = [] ∨ sg = ['-']) ∧
    IntOk ip ∧ FracOk fp ∧ ExpOk ep

theorem takeDigits_all (cs : List Char) : ∀ d ∈ (takeDigits cs).1, d.isDigit = true :=
  fun _ hd => List.mem_takeWhile_imp hd

theorem takeDigits_append_eq (cs : List Char) : (takeDigits cs).1 ++ (takeDigits cs).2 = cs := by
  show cs.takeWhile Char.isDigit ++ cs.dropWhile Char.isDigit = cs
  exact List.takeWhile_append_dropWhile _ _

theorem lexInt_zero (rest : List Char) : lexInt ('0' :: rest) = some (['0'], rest) := by
  simp [lexInt]

theorem lexInt_digit {c : Char} (h0 : c ≠ '0') (hd : c.isDigit = true) (rest : List Char) :
    lexInt (c :: rest) = some (c :: (takeDigits rest).1, (takeDigits rest).2) := by
  simp only [lexInt]
  rw [if_neg h0, if_pos hd]

theorem lexInt_shape {cs ip rest : List Char} (h : lexInt cs = some (ip, rest)) :
    IntOk ip ∧ cs = ip ++ rest := by
  match cs with
  | [] => exact absurd h (by simp [lexInt])
  | c :: cs' =>
    by_cases h0 : c = '0'
    · subst h0
      rw [lexInt_zero] at h
      simp only [Option.some.injEq, Prod.mk.injEq] at h
      exact ⟨Or.inl h.1.symm, by rw [← h.1, ← h.2]; rfl⟩
    · by_cases hd : c.isDigit = true
      · rw [lexInt_digit h0 hd] at h
        simp only [Option.some.injEq, Prod.mk.injEq] at h
        refine ⟨Or.inr ⟨c, (takeDigits cs').1, h.1.symm, hd, h0, takeDigits_all cs'⟩, ?_⟩
        rw [← h.1, ← h.2, List.cons_append, takeDigits_append_eq]
      · refine absurd h ?_
        simp only [lexInt]
        rw [if_neg h0, if_neg hd]
        simp

theorem lexFracOpt_nil : lexFracOpt [] = ([], []) := rfl

theorem lexFracOpt_not_dot {c : Char} (h : c ≠ '.') (rest : List Char) :
    lexFracOpt (c :: rest) = ([], c :: rest) := by
  simp only [lexFracOpt]
  rw [if_neg h]

theorem lexFracOpt_dot_pos {rest : List Char} (he : (takeDigits rest).1.isEmpty = true) :
    lexFracOpt ('.' :: rest) = ([], '.' :: rest) := by
  simp [lexFracOpt, he]

theorem lexFracOpt_dot_neg {rest : List Char} (he : ¬ (takeDigits rest).1.isEmpty = true) :
    lexFracOpt ('.' :: rest) = ('.' :: (takeDigits rest).1, (takeDigits rest).2) := by
  simp [lexFracOpt, he]

theorem lexFracOpt_shape (cs : List Char) :
    FracOk (lexFracOpt cs).1 ∧ cs = (lexFracOpt cs).1 ++ (lexFracOpt cs).2 := by
  match cs with
  | [] => exact ⟨Or.inl rfl, rfl⟩
  | c :: cs' =>
    by_cases hdot : c = '.'
    · subst hdot
      by_cases he : (takeDigits cs').1.isEmpty = true
      · rw [lexFracOpt_dot_pos he]
        exact ⟨Or.inl rfl, rfl⟩
      · rw [lexFracOpt_dot_neg he]
        refine ⟨Or.inr ⟨(takeDigits cs').1, rfl, by simpa using he, takeDigits_all cs'⟩, ?_⟩
        simp [takeDigits_append_eq]
    · rw [lexFracOpt_not_dot hdot]
      exact ⟨Or.inl rfl, rfl⟩

theorem lexExpOpt_nil : lexExpOpt [] = ([], []) := rfl

theorem lexExpOpt_not_e {c : Char} (h1 : c ≠ 'e') (h2 : c ≠ 'E') (rest : List Char) :
    lexExpOpt (c :: rest) = ([], c :: rest) := by
  simp only [lexExpOpt]
  rw [if_neg (by simp [h1, h2])]

/-- The optional exponent sign. -/
def expSign : List Char → List Char × List Char
  | s :: r => if s = '+' || s = '-' then ([s], r) else ([], s :: r)
  | [] => ([], [])

theorem lexExpOpt_e_pos {c : Char} (hc : c = 'e' ∨ c = 'E') {rest : List Char}
    (he : (takeDigits (expSign rest).2).1.isEmpty = true) :
    lexExpOpt (c :: rest) = ([], c :: rest) := by
  simp only [lexExpOpt]
  rw [if_pos (show (decide (c = 'e') || decide (c = 'E')) = true by
    rcases hc with h | h <;> simp [h])]
  show (if (takeDigits (expSign rest).2).1.isEmpty = true then (([] : List Char), c :: rest)
        else (c :: (expSign rest).1 ++ (takeDigits (expSign rest).2).1,
              (takeDigits (expSign rest).2).2)) = ([], c :: rest)
  rw [if_pos he]

theorem lexExpOpt_e_neg {c : Char} (hc : c = 'e' ∨ c = 'E') {rest : List Char}
    (he : ¬ (takeDigits (expSign rest).2).1.isEmpty = true) :
    lexExpOpt (c :: rest) =
      (c :: (expSign rest).1 ++ (takeDigits (expSign rest).2).1,
       (takeDigits (expSign rest).2).2) := by
  simp only [lexExpOpt]
  rw [if_pos (show (decide (c = 'e') || decide (c = 'E')) = true by
    rcases hc with h | h <;> simp [h])]
  show (if (takeDigits (expSign rest).2).1.isEmpty = true then (([] : List Char), c :: rest)
        else (c :: (expSign rest).1 ++ (takeDigits (expSign rest).2).1,
              (takeDigits (expSign rest).2).2)) = _
  rw [if_neg he]

theorem expSign_split (cs : List Char) :
    ((expSign cs).1 = [] ∨ (expSign cs).1 = ['+'] ∨ (expSign cs).1 = ['-']) ∧
      (expSign cs).1 ++ (expSign cs).2 = cs := by
  match cs with
  | [] => exact ⟨Or.inl rfl, rfl⟩
  | s :: r =>
    simp only [expSign]
    by_cases hs : (s = '+' || s = '-') = true
    · rw [if_pos hs]
      rcases (by simpa using hs : s = '+' ∨ s = '-') with h | h <;> subst h
      · exact ⟨Or.inr (Or.inl rfl), rfl⟩
      · exact ⟨Or.inr (Or.inr rfl), rfl⟩
    · rw [if_neg hs]
      exact ⟨Or.inl rfl, rfl⟩

theorem lexExpOpt_shape (cs : List Char) :
    ExpOk (lexExpOpt cs).1 ∧ cs = (lexExpOpt cs).1 ++ (lexExpOpt cs).2 := by
  match cs with
  | [] => exact ⟨Or.inl rfl, rfl⟩
  | c :: cs' =>
    by_cases hce : c = 'e' ∨ c = 'E'
    · by_cases he : (takeDigits (expSign cs').2).1.isEmpty = true
      · rw [lexExpOpt_e_pos hce he]
        exact ⟨Or.inl rfl, rfl⟩
      · rw [lexExpOpt_e_neg hce he]
        constructor
        · exact Or.inr ⟨c, (expSign cs').1, (takeDigits (expSign cs').2).1, by simp,
            hce, (expSign_split cs').1, by simpa using he, takeDigits_all _⟩
        · simp only [List.cons_append, List.cons.injEq, true_and]
          rw [List.append_assoc, takeDigits_append_eq, (expSign_split cs').2]
    · push_neg at hce
      rw [lexExpOpt_not_e hce.1 hce.2]
      exact ⟨Or.inl rfl, rfl⟩

theorem lexNum_cons {c : Char} (hnm : c ≠ '-') (rest : List Char) :
    lexNum (c :: rest) =
      (match lexInt (c :: rest) with
       | none => none
       | some (ip, cs2) =>
           some (String.mk (ip ++ (lexFracOpt cs2).1 ++ (lexExpOpt (lexFracOpt cs2).2).1),
                 (lexExpOpt (lexFracOpt cs2).2).2)) := by
  simp only [lexNum]
  rw [if_neg hnm]
  match hInt : lexInt (c :: rest) with
  | none => rfl
  | some (ip, cs2) => simp

theorem lexNum_minus (rest : List Char) :
    lexNum ('-' :: rest) =
      (match lexInt rest with
       | none => none
       | some (ip, cs2) =>
           some (String.mk ('-' :: (ip ++ (lexFracOpt cs2).1 ++ (lexExpOpt (lexFracOpt cs2).2).1)),
                 (lexExpOpt (lexFracOpt cs2).2).2)) := by
  simp only [lexNum, if_true]
  match hInt : lexInt rest with
  | none => simp
  | some (ip, cs2) => simp

theorem lexNum_shape {cs : List Char} {lex : String} {rest : List Char}
    (h : lexNum cs = some (lex, rest)) : NumShape lex.data := by
  match cs with
  | [] => exact absurd h (by simp [lexNum, lexInt])
  | c :: cs' =>
    by_cases hm : c = '-'
    · subst hm
      rw [lexNum_minus] at h
      match hInt : lexInt cs' with
      | none => rw [hInt] at h; exact absurd h (by simp)
      | some (ip, cs2) =>
        rw [hInt] at h
        simp only [Option.some.injEq, Prod.mk.injEq] at h
        refine ⟨['-'], ip, (lexFracOpt cs2).1, (lexExpOpt (lexFracOpt cs2).2).1, ?_,
          Or.inr rfl, (lexInt_shape hInt).1, (lexFracOpt_shape cs2).1,
          (lexExpOpt_shape (lexFracOpt cs2).2).1⟩
        rw [← h.1]
        simp
    · rw [lexNum_cons hm] at h
      match hInt : lexInt (c :: cs') with
      | none => rw [hInt] at h; exact absurd h (by simp)
      | some (ip, cs2) =>
        rw [hInt] at h
        simp only [Option.some.injEq, Prod.mk.injEq] at h
        refine ⟨[], ip, (lexFracOpt cs2).1, (lexExpOpt (lexFracOpt cs2).2).1, ?_,
          Or.inl rfl, (lexInt_shape hInt).1, (lexFracOpt_shape cs2).1,
          (lexExpOpt_shape (lexFracOpt cs2).2).1⟩
        rw [← h.1]
        simp

/-! Appending a delimited tail to a well-shaped lexeme re-lexes to exactly
that lexeme.  `NumDelim` captures the characters that can follow a serialized
number: a comma, a closing brace/bracket, or nothing. -/

/-- The tail after a serialized number: empty or starting with a JSON
structural close/separator. -/
def NumDelim (X : List Char) : Prop :=
  ∀ x, X.head? = some x → x = ',' ∨ x = rbC ∨ x = rkC

theorem numDelim_facts {X : List Char} (h : NumDelim X) :
    ∀ x, X.head? = some x →
      x.isDigit = false ∧ x ≠ '.' ∧ x ≠ 'e' ∧ x ≠ 'E' ∧ x ≠ '+' ∧ x ≠ '-' := by
  intro x hx
  rcases h x hx with h | h | h <;> subst h <;> refine ⟨by decide, ?_, ?_, ?_, ?_, ?_⟩ <;> decide

theorem isDigit_facts {x : Char} (h : x.isDigit = true) :
    x ≠ '.' ∧ x ≠ 'e' ∧ x ≠ 'E' ∧ x ≠ '+' ∧ x ≠ '-' := by
  refine ⟨?_, ?_, ?_, ?_, ?_⟩ <;> intro hx <;> subst hx <;> simp at h

theorem takeWhile_all_append {p : Char → Bool} {ds X : List Char}
    (hds : ∀ d ∈ ds, p d = true) (hX : ∀ x, X.head? = some x → p x = false) :
    (ds ++ X).takeWhile p = ds ∧ (ds ++ X).dropWhile p = X := by
  induction ds with
  | nil =>
    simp only [List.nil_append]
    match X with
    | [] => exact ⟨rfl, rfl⟩
    | x :: xs =>
      exact ⟨List.takeWhile_cons_of_neg (by simp [hX x rfl]),
        List.dropWhile_cons_of_neg (by simp [hX x rfl])⟩
  | cons d ds ih =>
    have hd := hds d (by simp)
    have ihh := ih fun d hd => hds d (by simp [hd])
    simp only [List.cons_append]
    rw [List.takeWhile_cons_of_pos hd, List.dropWhile_cons_of_pos hd, ihh.1]
    exact ⟨rfl, ihh.2⟩

theorem takeDigits_of_append {ds X : List Char} (hds : ∀ d ∈ ds, d.isDigit = true)
    (hX : ∀ x, X.head? = some x → x.isDigit = false) :
    takeDigits (ds ++ X) = (ds, X) := by
  have h := takeWhile_all_append hds hX
  show ((ds ++ X).takeWhile Char.isDigit, (ds ++ X).dropWhile Char.isDigit) = (ds, X)
  rw [h.1, h.2]

theorem lexInt_append {ip Y : List Char} (h : IntOk ip)
    (hY : ∀ x, Y.head? = some x → x.isDigit = false) :
    lexInt (ip ++ Y) = some (ip, Y) := by
  rcases h with h | ⟨c, ds, rfl, hcd, hc0, hds⟩
  · subst h
    exact lexInt_zero Y
  · rw [List.cons_append, lexInt_digit hc0 hcd, takeDigits_of_append hds hY]

theorem lexFracOpt_append {fp Y : List Char} (h : FracOk fp)
    (hY1 : ∀ x, Y.head? = some x → x.isDigit = false)
    (hY2 : ∀ x, Y.head? = some x → x ≠ '.') :
    lexFracOpt (fp ++ Y) = (fp, Y) := by
  rcases h with rfl | ⟨ds, rfl, hne, hds⟩
  · simp only [List.nil_append]
    match Y with
    | [] => rfl
    | x :: xs => exact lexFracOpt_not_dot (hY2 x rfl) xs
  · rw [List.cons_append]
    have htd : takeDigits (ds ++ Y) = (ds, Y) := takeDigits_of_append hds hY1
    rw [lexFracOpt_dot_neg (by simp [htd, hne]), htd]

theorem expSign_empty {Y : List Char} (hY : ∀ x, Y.head? = some x → x ≠ '+' ∧ x ≠ '-') :
    expSign Y = ([], Y) := by
  match Y with
  | [] => rfl
  | x :: xs =>
    simp only [expSign]
    rw [if_neg (by simp [(hY x rfl).1, (hY x rfl).2])]

theorem lexExpOpt_append {ep Y : List Char} (h : ExpOk ep)
    (hY1 : ∀ x, Y.head? = some x → x.isDigit = false)
    (hY2 : ∀ x, Y.head? = some x → x ≠ 'e' ∧ x ≠ 'E') :
    lexExpOpt (ep ++ Y) = (ep, Y) := by
  rcases h with rfl | ⟨e, sg, ds, rfl, he, hsg, hne, hds⟩
  · simp only [List.nil_append]
    match Y with
    | [] => rfl
    | x :: xs => exact lexExpOpt_not_e (hY2 x rfl).1 (hY2 x rfl).2 xs
  · rw [List.cons_append]
    obtain ⟨d0, ds', rfl⟩ : ∃ d0 ds', ds = d0 :: ds' := by
      cases ds with
      | nil => exact absurd rfl hne
      | cons x xs => exact ⟨x, xs, rfl⟩
    have hes : expSign ((sg ++ (d0 :: ds')) ++ Y) = (sg, (d0 :: ds') ++ Y) := by
      rcases hsg with rfl | rfl | rfl
      · simp only [List.nil_append]
        apply expSign_empty
        intro x hx
        simp only [List.cons_append, List.head?_cons, Option.some.injEq] at hx
        subst hx
        have := isDigit_facts (hds d0 (by simp))
        exact ⟨this.2.2.2.1, this.2.2.2.2⟩
      · simp only [expSign, List.cons_append]
        rw [if_pos (by simp)]
        simp
      · simp only [expSign, List.cons_append]
        rw [if_pos (by simp)]
        simp
    have htd : takeDigits ((d0 :: ds') ++ Y) = (d0 :: ds', Y) :=
      takeDigits_of_append hds hY1
    have hee : (e = 'e' ∨ e = 'E') := he
    rw [show (sg ++ d0 :: ds') ++ Y = sg ++ d0 :: ds' ++ Y by simp] at *
    rw [lexExpOpt_e_neg hee (by rw [hes, htd]; simpa using hne)]
    rw [hes, htd]
    simp

theorem lexNum_append {l X : List Char} (h : NumShape l) (hX : NumDelim X) :
    lexNum (l ++ X) = some (String.mk l, X) := by
  obtain ⟨sg, ip, fp, ep, rfl, hsg, hip, hfp, hep⟩ := h
  have hXfacts := numDelim_facts hX
  have hY3d : ∀ x, X.head? = some x → x.isDigit = false := fun x hx => (hXfacts x hx).1
  have hY3e : ∀ x, X.head? = some x → x ≠ 'e' ∧ x ≠ 'E' :=
    fun x hx => ⟨(hXfacts x hx).2.2.1, (hXfacts x hx).2.2.2.1⟩
  have hExp : lexExpOpt (ep ++ X) = (ep, X) := lexExpOpt_append hep hY3d hY3e
  have hY2d : ∀ x, (ep ++ X).head? = some x → x.isDigit = false := by
    rcases hep with rfl | ⟨e, sg2, ds, rfl, he, _, hne, _⟩
    · simpa using hY3d
    · intro x hx
      simp only [List.cons_append, List.head?_cons, Option.some.injEq] at hx
      rcases he with rfl | rfl <;> rw [← hx] <;> decide
  have hY2dot : ∀ x, (ep ++ X).head? = some x → x ≠ '.' := by
    rcases hep with rfl | ⟨e, sg2, ds, rfl, he, _, hne, _⟩
    · simpa using fun x hx => (hXfacts x hx).2.1
    · intro x hx
      simp only [List.cons_append, List.head?_cons, Option.some.injEq] at hx
      rcases he with rfl | rfl <;> rw [← hx] <;> decide
  have hFrac : lexFracOpt (fp ++ (ep ++ X)) = (fp, ep ++ X) :=
    lexFracOpt_append hfp hY2d hY2dot
  have hY1d : ∀ x, (fp ++ (ep ++ X)).head? = some x → x.isDigit = false := by
    rcases hfp with rfl | ⟨ds, rfl, _, _⟩
    · simpa using hY2d
    · intro x hx
      simp only [List.cons_append, List.head?_cons, Option.some.injEq] at hx
      rw [← hx]
      decide
  have hInt : lexInt (ip ++ (fp ++ (ep ++ X))) = some (ip, fp ++ (ep ++ X)) :=
    lexInt_append hip hY1d
  obtain ⟨c0, t, hipEq, hc0⟩ : ∃ c0 t, ip = c0 :: t ∧ c0 ≠ '-' := by
    rcases hip with rfl | ⟨c, ds, rfl, hcd, _, _⟩
    · exact ⟨'0', [], rfl, by decide⟩
    · exact ⟨c, ds, rfl, (isDigit_facts hcd).2.2.2.2⟩
  rcases hsg with rfl | rfl
  · rw [show ([] ++ ip ++ fp ++ ep) ++ X = ip ++ (fp ++ (ep ++ X)) by simp]
    rw [hipEq, List.cons_append, lexNum_cons hc0, ← List.cons_append, ← hipEq, hInt]
    simp [hFrac, hExp]
  · rw [show (['-'] ++ ip ++ fp ++ ep) ++ X = '-' :: (ip ++ (fp ++ (ep ++ X))) by simp]
    rw [lexNum_minus, hInt]
    simp [hFrac, hExp]

/-- Well-formedness of recovered values: every numeric lexeme has the shape
the number lexer produces.  This is an invariant of every parser output. -/
inductive WfV : JsonValue → Prop where
  | null : WfV JsonValue.null
  | bool (b : Bool) : WfV (JsonValue.bool b)
  | num (lex : String) : NumShape lex.data → WfV (JsonValue.num lex)
  | str (s : String) : WfV (JsonValue.str s)
  | arr (xs : List JsonValue) : (∀ x ∈ xs, WfV x) → WfV (JsonValue.arr xs)
  | obj (fs : List (String × JsonValue)) : (∀ p ∈ fs, WfV p.2) → WfV (JsonValue.obj fs)

theorem parse_wf : ∀ f : Nat,
    (∀ cs v r, parseVal f cs = some (v, r) → WfV v) ∧
    (∀ cs v r, parseMembers f cs = some (v, r) → WfV v) ∧
    (∀ cs v r, parseElems f cs = some (v, r) → WfV v) := by
  intro f
  induction f with
  | zero =>
    refine ⟨?_, ?_, ?_⟩ <;> intro cs v r h <;>
      simp [parseVal, parseMembers, parseElems] at h
  | succ f ih =>
    obtain ⟨ihV, ihM, ihE⟩ := ih
    refine ⟨?_, ?_, ?_⟩
    · intro cs v r h
      simp only [parseVal] at h
      split at h
      · exact absurd h (by simp)
      · rename_i c rest hcs
        split at h
        · rcases hlex : lexStr rest with _ | ⟨content, r2⟩ <;> rw [hlex] at h
          · exact absurd h (by simp)
          · simp only [Option.map_some', Option.some.injEq, Prod.mk.injEq] at h
            rw [← h.1]
            exact WfV.str _
        · split at h
          · split at h
            · split at h
              · simp only [Option.some.injEq, Prod.mk.injEq] at h
                rw [← h.1]
                exact WfV.obj [] (by simp)
              · exact ihM _ _ _ h
            · exact absurd h (by simp)
          · split at h
            · split at h
              · split at h
                · simp only [Option.some.injEq, Prod.mk.injEq] at h
                  rw [← h.1]
                  exact WfV.arr [] (by simp)
                · exact ihE _ _ _ h
              · exact absurd h (by simp)
            · split at h
              · split at h
                · simp only [Option.some.injEq, Prod.mk.injEq] at h
                  rw [← h.1]
                  exact WfV.null
                · exact absurd h (by simp)
              · split at h
                · split at h
                  · simp only [Option.some.injEq, Prod.mk.injEq] at h
                    rw [← h.1]
                    exact WfV.bool true
                  · exact absurd h (by simp)
                · split at h
                  · split at h
                    · simp only [Option.some.injEq, Prod.mk.injEq] at h
                      rw [← h.1]
                      exact WfV.bool false
                    · exact absurd h (by simp)
                  · rcases hlex : lexNum (c :: rest) with _ | ⟨lex, r2⟩ <;> rw [hlex] at h
                    · exact absurd h (by simp)
                    · simp only [Option.map_some', Option.some.injEq, Prod.mk.injEq] at h
                      rw [← h.1]
                      exact WfV.num _ (lexNum_shape hlex)
    · intro cs v r h
      simp only [parseMembers] at h
      split at h
      · exact absurd h (by simp)
      · rename_i c rest hcs
        split at h
        · split at h
          · rename_i key r2 hkey
            split at h
            · split at h
              · split at h
                · rename_i vv r4 hval
                  split at h
                  · split at h
                    · split at h
                      · rename_i inner r6 hrec
                        simp only [Option.some.injEq, Prod.mk.injEq] at h
                        rw [← h.1]
                        have hWfInner : WfV (JsonValue.obj inner) := ihM _ _ _ hrec
                        cases hWfInner with
                        | obj _ hflds' =>
                          refine WfV.obj _ ?_
                          intro p hp
                          rcases List.mem_cons.mp hp with hp | hp
                          · rw [hp]
                            exact ihV _ _ _ hval
                          · exact hflds' p hp
                      · exact absurd h (by simp)
                    · split at h
                      · simp only [Option.some.injEq, Prod.mk.injEq] at h
                        rw [← h.1]
                        refine WfV.obj _ ?_
                        intro p hp
                        rcases List.mem_cons.mp hp with hp | hp
                        · rw [hp]
                          exact ihV _ _ _ (by assumption)
                        · simp at hp
                      · exact absurd h (by simp)
                  · exact absurd h (by simp)
                · exact absurd h (by simp)
              · exact absurd h (by simp)
            · exact absurd h (by simp)
          · exact absurd h (by simp)
        · exact absurd h (by simp)
    · intro cs v r h
      simp only [parseElems] at h
      split at h
      · rename_i vv r2 hval
        split at h
        · split at h
          · split at h
            · rename_i inner r3 hrec
              simp only [Option.some.injEq, Prod.mk.injEq] at h
              rw [← h.1]
              have hWfInner : WfV (JsonValue.arr inner) := ihE _ _ _ hrec
              cases hWfInner with
              | arr _ hxs' =>
                refine WfV.arr _ ?_
                intro x hx
                rcases List.mem_cons.mp hx with hx | hx
                · rw [hx]
                  exact ihV _ _ _ hval
                · exact hxs' x hx
            · exact absurd h (by simp)
          · split at h
            · simp only [Option.some.injEq, Prod.mk.injEq] at h
              rw [← h.1]
              refine WfV.arr _ ?_
              intro x hx
              rcases List.mem_cons.mp hx with hx | hx
              · rw [hx]
                exact ihV _ _ _ hval
              · simp at hx
            · exact absurd h (by simp)
        · exact absurd h (by simp)
      · exact absurd h (by simp)

/-! ## C4 — round-trip of recovery on re-serialized values

`serialize` introduces escape pairs (backslash-`n` for a newline, and so on)
that the normalizer of spec 4.1 converts back into raw control characters, a
corruption the spec itself records (spec 9).  The round-trip therefore holds
on the values whose strings serialize verbatim; the predicates below carve
out that class, and the counterexample shows the unrestricted sentence is
false. -/

/-- A character that `escCh` emits verbatim: not the quote, not the
backslash, not a control character. -/
def plainSer (c : Char) : Bool := !(c = dqC) && !(c = bsC) && 0x20 ≤ c.toNat

mutual

/-- Every string of the value (member keys included) serializes verbatim. -/
def safeStrings : JsonValue → Bool
  | JsonValue.null => true
  | JsonValue.bool _ => true
  | JsonValue.num _ => true
  | JsonValue.str s => s.data.all plainSer
  | JsonValue.arr xs => safeElems xs
  | JsonValue.obj fs => safeFields fs

/-- `safeStrings` over array elements. -/
def safeElems : List JsonValue → Bool
  | [] => true
  | x :: xs => safeStrings x && safeElems xs

/-- `safeStrings` over object members, keys included. -/
def safeFields : List (String × JsonValue) → Bool
  | [] => true
  | p :: ps => p.1.data.all plainSer && safeStrings p.2 && safeFields ps

end

mutual

/-- Fuel sufficient for `parseVal` on the serialization of a value. -/
def needV : JsonValue → Nat
  | JsonValue.null => 1
  | JsonValue.bool _ => 1
  | JsonValue.num _ => 1
  | JsonValue.str _ => 1
  | JsonValue.arr xs => 1 + needEL xs
  | JsonValue.obj fs => 1 + needML fs

/-- Fuel sufficient for `parseElems` on a serialized element list. -/
def needEL : List JsonValue → Nat
  | [] => 0
  | x :: xs => 1 + max (needV x) (needEL xs)

/-- Fuel sufficient for `parseMembers` on a serialized member list. -/
def needML : List (String × JsonValue) → Nat
  | [] => 0
  | (_, v) :: ps => 1 + max (needV v) (needML ps)

end

theorem digitToNat (c : Char) (h : c.isDigit = true) : 48 ≤ c.toNat ∧ c.toNat ≤ 57 := by
  simp [Char.isDigit] at h
  obtain ⟨h1, h2⟩ := h
  exact ⟨h1, h2⟩

theorem digit_not_jsWs {c : Char} (h : c.isDigit = true) : isJsWs c = false := by
  obtain ⟨h1, h2⟩ := digitToNat c h
  simp only [isJsWs, Bool.or_eq_false_iff]
  repeat' apply And.intro
  all_goals
    first
      | (simp only [decide_eq_false_iff_not]
         intro he
         subst he
         exact absurd (And.intro h1 h2) (by decide))
      | (have hx : ¬ 0x2000 ≤ c.toNat := by omega
         simp [hx])

theorem digit_not_jsonWs {c : Char} (h : c.isDigit = true) : isJsonWs c = false := by
  obtain ⟨h1, h2⟩ := digitToNat c h
  simp only [isJsonWs, Bool.or_eq_false_iff]
  repeat' apply And.intro
  all_goals
    simp only [decide_eq_false_iff_not]
    intro he
    subst he
    exact absurd (And.intro h1 h2) (by decide)

theorem plainSer_parts {c : Char} (h : plainSer c = true) :
    c ≠ dqC ∧ c ≠ bsC ∧ 0x20 ≤ c.toNat := by
  simpa [plainSer, and_assoc] using h

theorem escCh_plain {c : Char} (h : plainSer c = true) : escCh c = [c] := by
  obtain ⟨hdq, hbs, hge⟩ := plainSer_parts h
  have h8 : c ≠ Char.ofNat 8 := by intro he; subst he; exact absurd hge (by decide)
  have h12 : c ≠ Char.ofNat 12 := by intro he; subst he; exact absurd hge (by decide)
  have hn : c ≠ '\n' := by intro he; subst he; exact absurd hge (by decide)
  have hr : c ≠ '\r' := by intro he; subst he; exact absurd hge (by decide)
  have ht : c ≠ '\t' := by intro he; subst he; exact absurd hge (by decide)
  have hlt : ¬ c.toNat < 0x20 := by omega
  simp [escCh, hdq, hbs, h8, h12, hn, hr, ht, hlt]

theorem escStr_plain {cs : List Char} (h : ∀ c ∈ cs, plainSer c = true) :
    escStr cs = cs := by
  induction cs with
  | nil => rfl
  | cons c cs ih =>
    have hc := h c (List.mem_cons_self c cs)
    have hcs : escStr cs = cs := ih fun x hx => h x (List.mem_cons_of_mem c hx)
    simp only [escStr, List.flatMap_cons, escCh_plain hc]
    simpa [escStr] using hcs

theorem lexStrF_plain : ∀ (f : Nat) (cs : List Char), cs.length < f →
    (∀ c ∈ cs, plainSer c = true) →
    ∀ Y, lexStrF f (cs ++ dqC :: Y) = some (cs, Y) := by
  intro f
  induction f with
  | zero => intro cs hlen; omega
  | succ f ih =>
    intro cs hlen h Y
    cases cs with
    | nil =>
      rw [List.nil_append]
      simp [lexStrF]
    | cons c cs =>
      obtain ⟨hdq, hbs, hge⟩ := plainSer_parts (h c (List.mem_cons_self c cs))
      have hlt : ¬ c.toNat < 0x20 := by omega
      rw [List.cons_append]
      simp only [lexStrF]
      rw [if_neg hdq, if_neg hbs, if_neg hlt]
      rw [ih cs (by simp at hlen; omega) (fun x hx => h x (List.mem_cons_of_mem c hx)) Y]
      rfl

theorem lexStr_plain {cs : List Char} (h : ∀ c ∈ cs, plainSer c = true) :
    ∀ Y, lexStr (cs ++ dqC :: Y) = some (cs, Y) := by
  intro Y
  have hlen : cs.length < (cs ++ dqC :: Y).length + 1 := by simp; omega
  exact lexStrF_plain _ cs hlen h Y

theorem numShape_ne_nil {l : List Char} (h : NumShape l) : l ≠ [] := by
  obtain ⟨sg, ip, fp, ep, rfl, hsg, hip, hfp, hep⟩ := h
  rcases hip with rfl | ⟨c, ds, rfl, _, _, _⟩ <;> simp

theorem numShape_head {l : List Char} (h : NumShape l) :
    ∃ c t, l = c :: t ∧ (c = '-' ∨ c.isDigit = true) := by
  obtain ⟨sg, ip, fp, ep, rfl, hsg, hip, hfp, hep⟩ := h
  rcases hsg with rfl | rfl
  · rcases hip with rfl | ⟨c, ds, rfl, hd, _, _⟩
    · exact ⟨'0', fp ++ ep, by simp, Or.inr (by decide)⟩
    · exact ⟨c, ds ++ fp ++ ep, by simp, Or.inr hd⟩
  · rcases hip with rfl | ⟨c, ds, rfl, hd, _, _⟩
    · exact ⟨'-', '0' :: (fp ++ ep), by simp, Or.inl rfl⟩
    · exact ⟨'-', c :: ds ++ fp ++ ep, by simp, Or.inl rfl⟩

theorem serCh_head_shape (v : JsonValue) (hwf : WfV v) :
    ∃ c t, serCh v = c :: t ∧
      (c = dqC ∨ c = lbC ∨ c = lkC ∨ c = 'n' ∨ c = 't' ∨ c = 'f' ∨
       c = '-' ∨ c.isDigit = true) := by
  cases v with
  | null => exact ⟨'n', ['u', 'l', 'l'], by simp [serCh], by simp⟩
  | bool b =>
    cases b with
    | true => exact ⟨'t', ['r', 'u', 'e'], by simp [serCh], by simp⟩
    | false => exact ⟨'f', ['a', 'l', 's', 'e'], by simp [serCh], by simp⟩
  | num lex =>
    have hns : NumShape lex.data := by cases hwf with | num _ h => exact h
    obtain ⟨c, t, hct, hc⟩ := numShape_head hns
    refine ⟨c, t, by simp [serCh, hct], ?_⟩
    rcases hc with rfl | hd
    · simp
    · simp [hd]
  | str s => exact ⟨dqC, escStr s.data ++ [dqC], by simp [serCh], by simp⟩
  | arr xs =>
    cases xs with
    | nil => exact ⟨lkC, [rkC], by simp [serCh], by simp⟩
    | cons x xs =>
      exact ⟨lkC, serCh x ++ serElemsTail xs ++ [rkC], by simp [serCh], by simp⟩
  | obj fs =>
    cases fs with
    | nil => exact ⟨lbC, [rbC], by simp [serCh], by simp⟩
    | cons p ps =>
      exact ⟨lbC, serMember p ++ serMembersTail ps ++ [rbC], by simp [serCh], by simp⟩

theorem serHead_props {c : Char}
    (h : c = dqC ∨ c = lbC ∨ c = lkC ∨ c = 'n' ∨ c = 't' ∨ c = 'f' ∨
      c = '-' ∨ c.isDigit = true) :
    isJsonWs c = false ∧ isJsWs c = false ∧ c ≠ btC ∧ c ≠ bomC ∧ c ≠ '\n' ∧
      c ≠ rbC ∧ c ≠ rkC := by
  rcases h with rfl | rfl | rfl | rfl | rfl | rfl | rfl | hd
  · exact ⟨by decide, by decide, by decide, by decide, by decide, by decide, by decide⟩
  · exact ⟨by decide, by decide, by decide, by decide, by decide, by decide, by decide⟩
  · exact ⟨by decide, by decide, by decide, by decide, by decide, by decide, by decide⟩
  · exact ⟨by decide, by decide, by decide, by decide, by decide, by decide, by decide⟩
  · exact ⟨by decide, by decide, by decide, by decide, by decide, by decide, by decide⟩
  · exact ⟨by decide, by decide, by decide, by decide, by decide, by decide, by decide⟩
  · exact ⟨by decide, by decide, by decide, by decide, by decide, by decide, by decide⟩
  · obtain ⟨h1, h2⟩ := digitToNat _ hd
    refine ⟨digit_not_jsonWs hd, digit_not_jsWs hd, ?_, ?_, ?_, ?_, ?_⟩ <;>
      (intro he; subst he; exact absurd (And.intro h1 h2) (by decide))

theorem lastOfAllDigits {ds : List Char} (hne : ds ≠ [])
    (hds : ∀ d ∈ ds, d.isDigit = true) :
    ∃ x, ds.getLast? = some x ∧ x.isDigit = true :=
  ⟨ds.getLast hne, List.getLast?_eq_getLast ds hne, hds _ (List.getLast_mem hne)⟩

theorem numShape_last {l : List Char} (h : NumShape l) :
    ∃ c, l.getLast? = some c ∧ c.isDigit = true := by
  obtain ⟨sg, ip, fp, ep, rfl, hsg, hip, hfp, hep⟩ := h
  rcases hep with rfl | ⟨e, sg2, ds, rfl, he, hsg2, hne, hds⟩
  · rcases hfp with rfl | ⟨ds, rfl, hne, hds⟩
    · rcases hip with rfl | ⟨c, ds, rfl, hd, h0, hds⟩
      · refine ⟨'0', ?_, by decide⟩
        simp only [List.append_nil]
        rw [List.getLast?_append_of_ne_nil sg (by simp)]
        rfl
      · have hall : ∀ d ∈ c :: ds, d.isDigit = true := by
          intro d hdm
          rcases List.mem_cons.mp hdm with rfl | hdm
          · exact hd
          · exact hds d hdm
        obtain ⟨x, hx, hxd⟩ := lastOfAllDigits (by simp) hall
        refine ⟨x, ?_, hxd⟩
        simp only [List.append_nil]
        rw [List.getLast?_append_of_ne_nil sg (by simp)]
        exact hx
    · obtain ⟨x, hx, hxd⟩ := lastOfAllDigits hne hds
      refine ⟨x, ?_, hxd⟩
      simp only [List.append_nil]
      rw [show '.' :: ds = ['.'] ++ ds by rfl, ← List.append_assoc]
      rw [List.getLast?_append_of_ne_nil _ hne]
      exact hx
  · obtain ⟨x, hx, hxd⟩ := lastOfAllDigits hne hds
    refine ⟨x, ?_, hxd⟩
    rw [show e :: (sg2 ++ ds) = (e :: sg2) ++ ds by rfl, ← List.append_assoc]
    rw [List.getLast?_append_of_ne_nil _ hne]
    exact hx

theorem serCh_last_shape (v : JsonValue) (hwf : WfV v) :
    ∃ c, (serCh v).getLast? = some c ∧
      (c = dqC ∨ c = rbC ∨ c = rkC ∨ c = 'l' ∨ c = 'e' ∨ c.isDigit = true) := by
  cases v with
  | null => exact ⟨'l', by decide, by simp⟩
  | bool b =>
    cases b with
    | true => exact ⟨'e', by decide, by simp⟩
    | false => exact ⟨'e', by decide, by simp⟩
  | num lex =>
    have hns : NumShape lex.data := by cases hwf with | num _ h => exact h
    obtain ⟨c, hc, hcd⟩ := numShape_last hns
    exact ⟨c, by simpa [serCh] using hc, Or.inr (Or.inr (Or.inr (Or.inr (Or.inr hcd))))⟩
  | str s =>
    refine ⟨dqC, ?_, by simp⟩
    show (serCh (JsonValue.str s)).getLast? = some dqC
    rw [show serCh (JsonValue.str s) = (dqC :: escStr s.data) ++ [dqC] by simp [serCh]]
    rw [List.getLast?_append_of_ne_nil _ (by simp)]
    rfl
  | arr xs =>
    cases xs with
    | nil => exact ⟨rkC, by decide, by simp⟩
    | cons x xs =>
      refine ⟨rkC, ?_, by simp⟩
      rw [show serCh (JsonValue.arr (x :: xs)) =
          (lkC :: (serCh x ++ serElemsTail xs)) ++ [rkC] by simp [serCh]]
      rw [List.getLast?_append_of_ne_nil _ (by simp)]
      rfl
  | obj fs =>
    cases fs with
    | nil => exact ⟨rbC, by decide, by simp⟩
    | cons p ps =>
      refine ⟨rbC, ?_, by simp⟩
      rw [show serCh (JsonValue.obj (p :: ps)) =
          (lbC :: (serMember p ++ serMembersTail ps)) ++ [rbC] by simp [serCh]]
      rw [List.getLast?_append_of_ne_nil _ (by simp)]
      rfl

theorem serLast_props {c : Char}
    (h : c = dqC ∨ c = rbC ∨ c = rkC ∨ c = 'l' ∨ c = 'e' ∨ c.isDigit = true) :
    isJsWs c = false := by
  rcases h with rfl | rfl | rfl | rfl | rfl | hd
  · decide
  · decide
  · decide
  · decide
  · decide
  · exact digit_not_jsWs hd

theorem numShape_mem {l : List Char} (h : NumShape l) :
    ∀ c ∈ l, c.isDigit = true ∨ c = '-' ∨ c = '.' ∨ c = 'e' ∨ c = 'E' ∨ c = '+' := by
  obtain ⟨sg, ip, fp, ep, rfl, hsg, hip, hfp, hep⟩ := h
  intro c hc
  simp only [List.append_assoc, List.mem_append] at hc
  rcases hc with hc | hc | hc | hc
  · rcases hsg with rfl | rfl
    · simp at hc
    · simp at hc
      subst hc
      exact Or.inr (Or.inl rfl)
  · rcases hip with rfl | ⟨d, ds, rfl, hd, h0, hds⟩
    · simp at hc
      subst hc
      exact Or.inl (by decide)
    · rcases List.mem_cons.mp hc with rfl | hc
      · exact Or.inl hd
      · exact Or.inl (hds _ hc)
  · rcases hfp with rfl | ⟨ds, rfl, hne, hds⟩
    · simp at hc
    · rcases List.mem_cons.mp hc with rfl | hc
      · exact Or.inr (Or.inr (Or.inl rfl))
      · exact Or.inl (hds _ hc)
  · rcases hep with rfl | ⟨e, sg2, ds, rfl, he, hsg2, hne, hds⟩
    · simp at hc
    · rcases List.mem_cons.mp hc with rfl | hc
      · rcases he with rfl | rfl
        · exact Or.inr (Or.inr (Or.inr (Or.inl rfl)))
        · exact Or.inr (Or.inr (Or.inr (Or.inr (Or.inl rfl))))
      · rcases List.mem_append.mp hc with hc | hc
        · rcases hsg2 with rfl | rfl | rfl
          · simp at hc
          · simp at hc
            subst hc
            exact Or.inr (Or.inr (Or.inr (Or.inr (Or.inr rfl))))
          · simp at hc
            subst hc
            exact Or.inr (Or.inl rfl)
        · exact Or.inl (hds _ hc)

theorem numChar_props {c : Char}
    (h : c.isDigit = true ∨ c = '-' ∨ c = '.' ∨ c = 'e' ∨ c = 'E' ∨ c = '+') :
    c ≠ bsC ∧ c ≠ '\n' := by
  rcases h with hd | rfl | rfl | rfl | rfl | rfl
  · obtain ⟨h1, h2⟩ := digitToNat _ hd
    constructor <;> (intro he; subst he; exact absurd (And.intro h1 h2) (by decide))
  · exact ⟨by decide, by decide⟩
  · exact ⟨by decide, by decide⟩
  · exact ⟨by decide, by decide⟩
  · exact ⟨by decide, by decide⟩
  · exact ⟨by decide, by decide⟩

theorem plainSer_props {c : Char} (h : plainSer c = true) : c ≠ bsC ∧ c ≠ '\n' := by
  obtain ⟨hdq, hbs, hge⟩ := plainSer_parts h
  refine ⟨hbs, ?_⟩
  intro he
  subst he
  exact absurd hge (by decide)

theorem safeElems_parts {x : JsonValue} {xs : List JsonValue}
    (h : safeElems (x :: xs) = true) :
    safeStrings x = true ∧ safeElems xs = true := by
  simpa [safeElems, Bool.and_eq_true] using h

theorem safeFields_parts {p : String × JsonValue} {ps : List (String × JsonValue)}
    (h : safeFields (p :: ps) = true) :
    (∀ c ∈ p.1.data, plainSer c = true) ∧ safeStrings p.2 = true ∧
      safeFields ps = true := by
  have h' := h
  simp only [safeFields, Bool.and_eq_true] at h'
  exact ⟨List.all_eq_true.mp h'.1.1, h'.1.2, h'.2⟩

theorem safeStrings_str {s : String} (h : safeStrings (JsonValue.str s) = true) :
    ∀ c ∈ s.data, plainSer c = true := by
  simp only [safeStrings] at h
  exact List.all_eq_true.mp h

theorem wfV_arr_parts {x : JsonValue} {xs : List JsonValue}
    (h : WfV (JsonValue.arr (x :: xs))) : WfV x ∧ WfV (JsonValue.arr xs) := by
  cases h with
  | arr _ hall =>
    exact ⟨hall x (List.mem_cons_self x xs),
      WfV.arr xs fun y hy => hall y (List.mem_cons_of_mem x hy)⟩

theorem wfV_obj_parts {p : String × JsonValue} {ps : List (String × JsonValue)}
    (h : WfV (JsonValue.obj (p :: ps))) : WfV p.2 ∧ WfV (JsonValue.obj ps) := by
  cases h with
  | obj _ hall =>
    exact ⟨hall p (List.mem_cons_self p ps),
      WfV.obj ps fun q hq => hall q (List.mem_cons_of_mem p hq)⟩

theorem sizeOfV_pos (v : JsonValue) : 0 < sizeOf v := by
  cases v <;> simp_arith

theorem sizeOfLV_pos (xs : List JsonValue) : 0 < sizeOf xs := by
  cases xs <;> simp_arith

theorem sizeOfLP_pos (ps : List (String × JsonValue)) : 0 < sizeOf ps := by
  cases ps <;> simp_arith

theorem serChMemAux : ∀ n : Nat,
    (∀ v, sizeOf v ≤ n → WfV v → safeStrings v = true →
      ∀ c ∈ serCh v, c ≠ bsC ∧ c ≠ '\n') ∧
    (∀ xs, sizeOf xs ≤ n → WfV (JsonValue.arr xs) → safeElems xs = true →
      ∀ c ∈ serElemsTail xs, c ≠ bsC ∧ c ≠ '\n') ∧
    (∀ ps, sizeOf ps ≤ n → WfV (JsonValue.obj ps) → safeFields ps = true →
      ∀ c ∈ serMembersTail ps, c ≠ bsC ∧ c ≠ '\n') := by
  intro n
  induction n with
  | zero =>
    refine ⟨?_, ?_, ?_⟩
    · intro v hsz
      exact absurd (Nat.lt_of_lt_of_le (sizeOfV_pos v) hsz) (by simp)
    · intro xs hsz
      exact absurd (Nat.lt_of_lt_of_le (sizeOfLV_pos xs) hsz) (by simp)
    · intro ps hsz
      exact absurd (Nat.lt_of_lt_of_le (sizeOfLP_pos ps) hsz) (by simp)
  | succ n ih =>
    obtain ⟨ihV, ihE, ihM⟩ := ih
    refine ⟨?_, ?_, ?_⟩
    · intro v hsz hwf hsafe c hc
      cases v with
      | null =>
        simp only [serCh, List.mem_cons] at hc
        rcases hc with rfl | rfl | rfl | rfl | hc
        · exact ⟨by decide, by decide⟩
        · exact ⟨by decide, by decide⟩
        · exact ⟨by decide, by decide⟩
        · exact ⟨by decide, by decide⟩
        · simp at hc
      | bool b =>
        cases b <;> simp only [serCh, List.mem_cons] at hc
        · rcases hc with rfl | rfl | rfl | rfl | rfl | hc
          · exact ⟨by decide, by decide⟩
          · exact ⟨by decide, by decide⟩
          · exact ⟨by decide, by decide⟩
          · exact ⟨by decide, by decide⟩
          · exact ⟨by decide, by decide⟩
          · simp at hc
        · rcases hc with rfl | rfl | rfl | rfl | hc
          · exact ⟨by decide, by decide⟩
          · exact ⟨by decide, by decide⟩
          · exact ⟨by decide, by decide⟩
          · exact ⟨by decide, by decide⟩
          · simp at hc
      | num lex =>
        have hns : NumShape lex.data := by cases hwf with | num _ h => exact h
        simp only [serCh] at hc
        exact numChar_props (numShape_mem hns c hc)
      | str s =>
        have hplain := safeStrings_str hsafe
        simp only [serCh, escStr_plain hplain, List.mem_cons, List.mem_append,
          List.mem_singleton, List.mem_nil_iff, or_false] at hc
        rcases hc with rfl | hc | rfl
        · exact ⟨by decide, by decide⟩
        · exact plainSer_props (hplain c hc)
        · exact ⟨by decide, by decide⟩
      | arr xs =>
        cases xs with
        | nil =>
          simp only [serCh, List.mem_cons] at hc
          rcases hc with rfl | rfl | hc
          · exact ⟨by decide, by decide⟩
          · exact ⟨by decide, by decide⟩
          · simp at hc
        | cons x xs =>
          have hszl : sizeOf (x :: xs) ≤ n := by
            have := JsonValue.arr.sizeOf_spec (x :: xs)
            omega
          simp only [serCh, List.mem_cons, List.mem_append, List.mem_singleton,
            List.mem_nil_iff, or_false] at hc
          rcases hc with rfl | (hc | hc) | rfl
          · exact ⟨by decide, by decide⟩
          · have : c ∈ serElemsTail (x :: xs) := by
              simp only [serElemsTail, List.mem_cons, List.mem_append]
              exact Or.inr (Or.inl hc)
            exact ihE (x :: xs) hszl hwf hsafe c this
          · have : c ∈ serElemsTail (x :: xs) := by
              simp only [serElemsTail, List.mem_cons, List.mem_append]
              exact Or.inr (Or.inr hc)
            exact ihE (x :: xs) hszl hwf hsafe c this
          · exact ⟨by decide, by decide⟩
      | obj ps =>
        cases ps with
        | nil =>
          simp only [serCh, List.mem_cons] at hc
          rcases hc with rfl | rfl | hc
          · exact ⟨by decide, by decide⟩
          · exact ⟨by decide, by decide⟩
          · simp at hc
        | cons p ps =>
          have hszl : sizeOf (p :: ps) ≤ n := by
            have := JsonValue.obj.sizeOf_spec (p :: ps)
            omega
          simp only [serCh, List.mem_cons, List.mem_append, List.mem_singleton,
            List.mem_nil_iff, or_false] at hc
          rcases hc with rfl | (hc | hc) | rfl
          · exact ⟨by decide, by decide⟩
          · have : c ∈ serMembersTail (p :: ps) := by
              simp only [serMembersTail, List.mem_cons, List.mem_append]
              exact Or.inr (Or.inl hc)
            exact ihM (p :: ps) hszl hwf hsafe c this
          · have : c ∈ serMembersTail (p :: ps) := by
              simp only [serMembersTail, List.mem_cons, List.mem_append]
              exact Or.inr (Or.inr hc)
            exact ihM (p :: ps) hszl hwf hsafe c this
          · exact ⟨by decide, by decide⟩
    · intro xs hsz hwf hsafe c hc
      cases xs with
      | nil => simp [serElemsTail] at hc
      | cons x xs =>
        obtain ⟨hwx, hwxs⟩ := wfV_arr_parts hwf
        obtain ⟨hsx, hsxs⟩ := safeElems_parts hsafe
        have hx : sizeOf x ≤ n := by
          have h1 := List.cons.sizeOf_spec x xs
          have h2 := sizeOfLV_pos xs
          omega
        have hxs : sizeOf xs ≤ n := by
          have h1 := List.cons.sizeOf_spec x xs
          have h2 := sizeOfV_pos x
          omega
        simp only [serElemsTail, List.mem_cons, List.mem_append] at hc
        rcases hc with rfl | hc | hc
        · exact ⟨by decide, by decide⟩
        · exact ihV x hx hwx hsx c hc
        · exact ihE xs hxs hwxs hsxs c hc
    · intro ps hsz hwf hsafe c hc
      cases ps with
      | nil => simp [serMembersTail] at hc
      | cons p ps =>
        obtain ⟨k, v2⟩ := p
        obtain ⟨hwp, hwps⟩ := wfV_obj_parts hwf
        obtain ⟨hkey, hsp, hsps⟩ := safeFields_parts hsafe
        have hsz1 := List.cons.sizeOf_spec (k, v2) ps
        have hsz2 := Prod.mk.sizeOf_spec k v2
        have hszps := sizeOfLP_pos ps
        have hszv := sizeOfV_pos v2
        have hp2 : sizeOf v2 ≤ n := by omega
        have hps : sizeOf ps ≤ n := by omega
        simp only [serMembersTail, serMember, escStr_plain hkey, List.cons_append,
          List.append_assoc, List.singleton_append, List.mem_cons,
          List.mem_append, List.mem_nil_iff, or_false, false_or] at hc
        rcases hc with rfl | rfl | hc | rfl | rfl | hc | hc
        · exact ⟨by decide, by decide⟩
        · exact ⟨by decide, by decide⟩
        · exact plainSer_props (hkey c hc)
        · exact ⟨by decide, by decide⟩
        · exact ⟨by decide, by decide⟩
        · exact ihV v2 hp2 hwp hsp c hc
        · exact ihM ps hps hwps hsps c hc

theorem specStripBOM_id {cs : List Char} (h : ∀ x, cs.head? = some x → x ≠ bomC) :
    specStripBOM cs = cs := by
  cases cs with
  | nil => rfl
  | cons c t =>
    simp only [specStripBOM]
    rw [if_neg (h c rfl)]

theorem specStripLeadFence_id {cs : List Char}
    (h : ∀ x, cs.head? = some x → x ≠ btC ∧ x ≠ '\n') :
    specStripLeadFence cs = cs := by
  cases cs with
  | nil => rfl
  | cons c t =>
    obtain ⟨hbt, hnl⟩ := h c rfl
    have hline : (splitLine (c :: t)).1 = c :: t.takeWhile fun x => x ≠ '\n' := by
      simp only [splitLine]
      rw [List.takeWhile_cons_of_pos (by simp [hnl])]
    have hmark : isFenceMarkerLine (splitLine (c :: t)).1 = false := by
      rw [hline]
      simp only [isFenceMarkerLine, headMatches]
      rw [show decide (btC = c) = false by simp [Ne.symm hbt]]
      simp
    simp only [specStripLeadFence]
    rw [hmark]
    simp

theorem specStripTrailFence_id {cs : List Char}
    (hn : ∀ c ∈ cs, c ≠ '\n')
    (hh : ∀ x, cs.head? = some x → isJsWs x = false ∧ x ≠ btC) :
    specStripTrailFence cs = cs := by
  have hdrop : cs.reverse.dropWhile (fun c => c ≠ '\n') = [] := by
    rw [List.dropWhile_eq_nil_iff]
    intro x hx
    simp [hn x (List.mem_reverse.mp hx)]
  have htake : cs.reverse.takeWhile (fun c => c ≠ '\n') = cs.reverse := by
    rw [List.takeWhile_eq_self_iff]
    intro x hx
    simp [hn x (List.mem_reverse.mp hx)]
  have hsplit : splitLastLine cs = ([], cs) := by
    simp only [splitLastLine, hdrop, htake]
    simp
  have hfence : isTrailFenceLine cs = false := by
    cases cs with
    | nil => rfl
    | cons c t =>
      obtain ⟨hws, hbt⟩ := hh c rfl
      simp only [isTrailFenceLine]
      rw [List.dropWhile_cons_of_neg (by simp [hws])]
      simp only [headMatches]
      rw [show decide (btC = c) = false by simp [Ne.symm hbt]]
      simp
  simp only [specStripTrailFence, hsplit, hfence]
  simp

/-- On a safe well-formed serialization the spec normalizer is the
identity: no BOM, no escape pairs, no fence lines, no boundary whitespace. -/
theorem specNormalize_ser (v : JsonValue) (hwf : WfV v) (hs : safeStrings v = true) :
    specNormalize (serCh v) = serCh v := by
  obtain ⟨c0, t0, hser, hshape⟩ := serCh_head_shape v hwf
  obtain ⟨hjw, hjsw, hbt, hbom, hnl, hrb, hrk⟩ := serHead_props hshape
  obtain ⟨cl, hlast, hlshape⟩ := serCh_last_shape v hwf
  have hlws : isJsWs cl = false := serLast_props hlshape
  have hmem := (serChMemAux (sizeOf v)).1 v le_rfl hwf hs
  have h1 : specStripBOM (serCh v) = serCh v := by
    apply specStripBOM_id
    intro x hx
    rw [hser] at hx
    cases hx
    exact hbom
  have h2 : jsReplaceEscapes (serCh v) = serCh v :=
    jsReplaceEscapes_id fun c hc => (hmem c hc).1
  have h3 : specStripLeadFence (serCh v) = serCh v := by
    apply specStripLeadFence_id
    intro x hx
    rw [hser] at hx
    cases hx
    exact ⟨hbt, hnl⟩
  have h4 : specStripTrailFence (serCh v) = serCh v := by
    apply specStripTrailFence_id
    · intro c hc
      exact (hmem c hc).2
    · intro x hx
      rw [hser] at hx
      cases hx
      exact ⟨hjsw, hbt⟩
  have h5 : trimChars (serCh v) = serCh v := by
    apply trimChars_id
    · intro x hx
      rw [hser] at hx
      cases hx
      exact hjsw
    · intro x hx
      rw [hlast] at hx
      cases hx
      exact hlws
  simp only [specNormalize, h1, h2, h3, h4, h5]

theorem skipWs_cons_neg {c : Char} (h : isJsonWs c = false) (t : List Char) :
    skipWs (c :: t) = c :: t := by
  simp only [skipWs]
  rw [List.dropWhile_cons_of_neg (by simp [h])]

theorem numDelim_nil : NumDelim [] := by
  intro x hx
  simp at hx

theorem numDelim_cons {c : Char} (h : c = ',' ∨ c = rbC ∨ c = rkC) (t : List Char) :
    NumDelim (c :: t) := by
  intro x hx
  simp only [List.head?_cons, Option.some.injEq] at hx
  subst hx
  exact h

theorem numDelim_serElems (xs : List JsonValue) (rest : List Char) :
    NumDelim (serElemsTail xs ++ rkC :: rest) := by
  cases xs with
  | nil =>
    simp only [serElemsTail, List.nil_append]
    exact numDelim_cons (Or.inr (Or.inr rfl)) rest
  | cons y ys =>
    simp only [serElemsTail, List.cons_append]
    exact numDelim_cons (Or.inl rfl) _

theorem numDelim_serMembers (ps : List (String × JsonValue)) (rest : List Char) :
    NumDelim (serMembersTail ps ++ rbC :: rest) := by
  cases ps with
  | nil =>
    simp only [serMembersTail, List.nil_append]
    exact numDelim_cons (Or.inr (Or.inl rfl)) rest
  | cons q qs =>
    simp only [serMembersTail, List.cons_append]
    exact numDelim_cons (Or.inl rfl) _

theorem digit_not_structural {c : Char} (hd : c.isDigit = true) :
    c ≠ dqC ∧ c ≠ lbC ∧ c ≠ lkC ∧ c ≠ 'n' ∧ c ≠ 't' ∧ c ≠ 'f' := by
  obtain ⟨h1, h2⟩ := digitToNat _ hd
  refine ⟨?_, ?_, ?_, ?_, ?_, ?_⟩ <;>
    (intro he; subst he; exact absurd (And.intro h1 h2) (by decide))

theorem needV_pos (v : JsonValue) : 1 ≤ needV v := by
  cases v <;> simp [needV]

theorem parse_ser : ∀ f : Nat,
    (∀ v rest, WfV v → safeStrings v = true → needV v ≤ f → NumDelim rest →
      parseVal f (serCh v ++ rest) = some (v, rest)) ∧
    (∀ p ps rest, WfV (JsonValue.obj (p :: ps)) → safeFields (p :: ps) = true →
      needML (p :: ps) ≤ f →
      parseMembers f (serMember p ++ (serMembersTail ps ++ rbC :: rest)) =
        some (JsonValue.obj (p :: ps), rest)) ∧
    (∀ x xs rest, WfV (JsonValue.arr (x :: xs)) → safeElems (x :: xs) = true →
      needEL (x :: xs) ≤ f →
      parseElems f (serCh x ++ (serElemsTail xs ++ rkC :: rest)) =
        some (JsonValue.arr (x :: xs), rest)) := by
  intro f
  induction f with
  | zero =>
    refine ⟨?_, ?_, ?_⟩
    · intro v rest hwf hs hf
      exact absurd (Nat.le_trans (needV_pos v) hf) (by simp)
    · intro p ps rest hwf hs hf
      simp only [needML] at hf
      omega
    · intro x xs rest hwf hs hf
      simp only [needEL] at hf
      omega
  | succ f ih =>
    obtain ⟨ihV, ihM, ihE⟩ := ih
    refine ⟨?_, ?_, ?_⟩
    · intro v rest hwf hs hf hnd
      cases v with
      | null => simp [serCh, parseVal, skipWs, isJsonWs, dqC, lbC, lkC]
      | bool b =>
        cases b <;> simp [serCh, parseVal, skipWs, isJsonWs, dqC, lbC, lkC]
      | num lex =>
        have hns : NumShape lex.data := by cases hwf with | num _ h => exact h
        obtain ⟨c, t, hct, hc⟩ := numShape_head hns
        have hlex : lexNum (lex.data ++ rest) = some (String.mk lex.data, rest) :=
          lexNum_append hns hnd
        have hjw : isJsonWs c = false := by
          rcases hc with rfl | hd
          · decide
          · exact digit_not_jsonWs hd
        have hne : c ≠ dqC ∧ c ≠ lbC ∧ c ≠ lkC ∧ c ≠ 'n' ∧ c ≠ 't' ∧ c ≠ 'f' := by
          rcases hc with rfl | hd
          · exact ⟨by decide, by decide, by decide, by decide, by decide, by decide⟩
          · exact digit_not_structural hd
        obtain ⟨hne1, hne2, hne3, hne4, hne5, hne6⟩ := hne
        simp only [serCh, hct, List.cons_append]
        simp only [parseVal]
        rw [skipWs_cons_neg hjw]
        simp only []
        rw [if_neg hne1, if_neg hne2, if_neg hne3, if_neg hne4, if_neg hne5, if_neg hne6]
        rw [show c :: (t ++ rest) = lex.data ++ rest by rw [hct]; rfl]
        rw [hlex]
        rfl
      | str s =>
        have hplain := safeStrings_str hs
        have hlex := lexStr_plain hplain rest
        simp only [serCh, escStr_plain hplain, List.cons_append, List.append_assoc,
          List.singleton_append, List.nil_append]
        simp only [parseVal]
        rw [skipWs_cons_neg (by decide)]
        simp [hlex]
      | arr xs =>
        cases xs with
        | nil => simp [serCh, parseVal, skipWs, isJsonWs, dqC, lbC, lkC, rbC, rkC]
        | cons x xs =>
          obtain ⟨hwx, hwxs⟩ := wfV_arr_parts hwf
          simp only [safeStrings] at hs
          obtain ⟨cx, tx, hcx, hcxshape⟩ := serCh_head_shape x hwx
          obtain ⟨hcxjw, _, _, _, _, hcxrb, hcxrk⟩ := serHead_props hcxshape
          have hfE : needEL (x :: xs) ≤ f := by
            simp only [needV] at hf
            omega
          simp only [serCh, List.cons_append, List.append_assoc, List.singleton_append,
            List.nil_append]
          simp only [parseVal]
          rw [skipWs_cons_neg (by decide)]
          simp only []
          rw [if_neg (by decide : ¬ (lkC = dqC)), if_neg (by decide : ¬ (lkC = lbC))]
          rw [if_pos trivial]
          rw [hcx, List.cons_append, skipWs_cons_neg hcxjw]
          simp only []
          rw [if_neg hcxrk]
          rw [show cx :: (tx ++ (serElemsTail xs ++ rkC :: rest)) =
              serCh x ++ (serElemsTail xs ++ rkC :: rest) by rw [hcx]; rfl]
          exact ihE x xs rest hwf hs hfE
      | obj ps =>
        cases ps with
        | nil => simp [serCh, parseVal, skipWs, isJsonWs, dqC, lbC, lkC, rbC, rkC]
        | cons p ps =>
          simp only [safeStrings] at hs
          have hfM : needML (p :: ps) ≤ f := by
            simp only [needV] at hf
            omega
          obtain ⟨w, hw⟩ : ∃ w, serMember p = dqC :: w := by
            obtain ⟨k, v2⟩ := p
            refine ⟨escStr k.data ++ [dqC] ++ (':' :: serCh v2), ?_⟩
            simp [serMember]
          simp only [serCh, List.cons_append, List.append_assoc, List.singleton_append,
            List.nil_append]
          simp only [parseVal]
          rw [skipWs_cons_neg (by decide)]
          simp only []
          rw [if_neg (by decide : ¬ (lbC = dqC))]
          rw [if_pos trivial]
          rw [hw, List.cons_append, skipWs_cons_neg (by decide)]
          simp only []
          rw [if_neg (by decide : ¬ (dqC = rbC))]
          rw [← List.cons_append, ← hw]
          exact ihM p ps rest hwf hs hfM
    · intro p ps rest hwf hsafe hf
      obtain ⟨k, v2⟩ := p
      obtain ⟨hkey, hsp, hsps⟩ := safeFields_parts hsafe
      obtain ⟨hwp, hwps⟩ := wfV_obj_parts hwf
      have hfV : needV v2 ≤ f := by
        simp only [needML] at hf
        omega
      simp only [serMember, List.cons_append, List.append_assoc, List.singleton_append,
        List.nil_append, escStr_plain hkey]
      simp only [parseMembers]
      rw [if_pos trivial]
      rw [lexStr_plain hkey]
      simp only []
      rw [skipWs_cons_neg (by decide)]
      simp only []
      rw [if_pos trivial]
      rw [ihV v2 _ hwp hsp hfV (numDelim_serMembers ps rest)]
      simp only []
      cases ps with
      | nil =>
        simp only [serMembersTail, List.nil_append]
        rw [skipWs_cons_neg (by decide)]
        simp only []
        rw [if_neg (by decide : ¬ (rbC = ','))]
        rw [if_pos trivial]
      | cons q qs =>
        have hfM : needML (q :: qs) ≤ f := by
          simp only [needML] at hf ⊢
          omega
        simp only [serMembersTail, List.cons_append]
        rw [skipWs_cons_neg (by decide)]
        simp only []
        rw [if_pos trivial]
        rw [List.append_assoc]
        obtain ⟨w, hw⟩ : ∃ w, serMember q = dqC :: w := by
          obtain ⟨k2, u2⟩ := q
          refine ⟨escStr k2.data ++ [dqC] ++ (':' :: serCh u2), ?_⟩
          simp [serMember]
        rw [hw, List.cons_append, skipWs_cons_neg (by decide), ← List.cons_append, ← hw]
        rw [ihM q qs rest hwps hsps hfM]
    · intro x xs rest hwf hsafe hf
      obtain ⟨hwx, hwxs⟩ := wfV_arr_parts hwf
      obtain ⟨hsx, hsxs⟩ := safeElems_parts hsafe
      have hfV : needV x ≤ f := by
        simp only [needEL] at hf
        omega
      simp only [parseElems]
      rw [ihV x _ hwx hsx hfV (numDelim_serElems xs rest)]
      simp only []
      cases xs with
      | nil =>
        simp only [serElemsTail, List.nil_append]
        rw [skipWs_cons_neg (by decide)]
        simp only []
        rw [if_neg (by decide : ¬ (rkC = ','))]
        rw [if_pos trivial]
      | cons y ys =>
        have hfE : needEL (y :: ys) ≤ f := by
          simp only [needEL] at hf ⊢
          omega
        simp only [serElemsTail, List.cons_append]
        rw [skipWs_cons_neg (by decide)]
        simp only []
        rw [if_pos trivial]
        rw [List.append_assoc]
        rw [ihE y ys rest hwxs hsxs hfE]

theorem needLeAux : ∀ n : Nat,
    (∀ v, sizeOf v ≤ n → WfV v → needV v ≤ (serCh v).length) ∧
    (∀ x xs, sizeOf (x :: xs : List JsonValue) ≤ n → WfV (JsonValue.arr (x :: xs)) →
      needEL (x :: xs) ≤ (serCh x).length + (serElemsTail xs).length + 1) ∧
    (∀ p ps, sizeOf (p :: ps : List (String × JsonValue)) ≤ n →
      WfV (JsonValue.obj (p :: ps)) →
      needML (p :: ps) ≤ (serMember p).length + (serMembersTail ps).length + 1) := by
  intro n
  induction n with
  | zero =>
    refine ⟨?_, ?_, ?_⟩
    · intro v hsz
      exact absurd (Nat.lt_of_lt_of_le (sizeOfV_pos v) hsz) (by simp)
    · intro x xs hsz
      exact absurd (Nat.lt_of_lt_of_le (sizeOfLV_pos (x :: xs)) hsz) (by simp)
    · intro p ps hsz
      exact absurd (Nat.lt_of_lt_of_le (sizeOfLP_pos (p :: ps)) hsz) (by simp)
  | succ n ih =>
    obtain ⟨ihV, ihE, ihM⟩ := ih
    refine ⟨?_, ?_, ?_⟩
    · intro v hsz hwf
      cases v with
      | null => simp [needV, serCh]
      | bool b => cases b <;> simp [needV, serCh]
      | num lex =>
        have hns : NumShape lex.data := by cases hwf with | num _ h => exact h
        obtain ⟨c, t, hct, _⟩ := numShape_head hns
        simp [needV, serCh, hct]
      | str s => simp [needV, serCh]
      | arr xs =>
        cases xs with
        | nil => simp [needV, needEL, serCh]
        | cons x xs =>
          have hszl : sizeOf (x :: xs : List JsonValue) ≤ n := by
            have := JsonValue.arr.sizeOf_spec (x :: xs)
            omega
          have hE := ihE x xs hszl hwf
          simp only [needV, serCh]
          simp only [List.length_cons, List.length_append, List.length_singleton]
          omega
      | obj ps =>
        cases ps with
        | nil => simp [needV, needML, serCh]
        | cons p ps =>
          have hszl : sizeOf (p :: ps : List (String × JsonValue)) ≤ n := by
            have := JsonValue.obj.sizeOf_spec (p :: ps)
            omega
          have hM := ihM p ps hszl hwf
          simp only [needV, serCh]
          simp only [List.length_cons, List.length_append, List.length_singleton]
          omega
    · intro x xs hsz hwf
      obtain ⟨hwx, hwxs⟩ := wfV_arr_parts hwf
      have hszx : sizeOf x ≤ n := by
        have h1 := List.cons.sizeOf_spec x xs
        have h2 := sizeOfLV_pos xs
        omega
      have hVx := ihV x hszx hwx
      cases xs with
      | nil =>
        simp only [needEL, serElemsTail, List.length_nil]
        omega
      | cons y ys =>
        have hszl : sizeOf (y :: ys : List JsonValue) ≤ n := by
          have h1 := List.cons.sizeOf_spec x (y :: ys)
          have h2 := sizeOfV_pos x
          omega
        have hE := ihE y ys hszl hwxs
        simp only [needEL, serElemsTail, List.length_cons, List.length_append] at *
        omega
    · intro p ps hsz hwf
      obtain ⟨hwp, hwps⟩ := wfV_obj_parts hwf
      obtain ⟨k, v2⟩ := p
      have hszv : sizeOf v2 ≤ n := by
        have h1 := List.cons.sizeOf_spec (k, v2) ps
        have h2 := Prod.mk.sizeOf_spec k v2
        have h3 := sizeOfLP_pos ps
        omega
      have hVv := ihV v2 hszv hwp
      have hlenM : (serCh v2).length + 3 ≤ (serMember (k, v2)).length := by
        simp [serMember]
      cases ps with
      | nil =>
        simp only [needML, serMembersTail, List.length_nil]
        omega
      | cons q qs =>
        have hszl : sizeOf (q :: qs : List (String × JsonValue)) ≤ n := by
          have h1 := List.cons.sizeOf_spec (k, v2) (q :: qs)
          have h2 := Prod.mk.sizeOf_spec k v2
          have h3 := sizeOfV_pos v2
          omega
        have hM := ihM q qs hszl hwps
        simp only [needML, serMembersTail, List.length_cons, List.length_append] at *
        omega

/-- Strict parsing inverts serialization on safe well-formed values. -/
theorem parseStrictL_ser (v : JsonValue) (hwf : WfV v) (hs : safeStrings v = true) :
    parseStrictL (serCh v) = some v := by
  have hle : needV v ≤ 2 * (serCh v).length + 2 := by
    have h := (needLeAux (sizeOf v)).1 v le_rfl hwf
    omega
  have h := (parse_ser (2 * (serCh v).length + 2)).1 v [] hwf hs hle numDelim_nil
  rw [List.append_nil] at h
  simp [parseStrictL, h, skipWs]

/-- On a safe well-formed value the whole recovery pipeline succeeds at the
direct stage with exactly that value. -/
theorem recover_ser (v : JsonValue) (hwf : WfV v) (hs : safeStrings v = true) :
    recover (serialize v) defaultOptions =
      ⟨some v, true, some Strategy.direct, serialize v⟩ := by
  have hnorm : specNormalize (serialize v).data = serCh v := specNormalize_ser v hwf hs
  have hp : parseWith defaultOptions.allowPartial (specNormalize (serialize v).data) =
      some v := by
    rw [hnorm]
    show parseWith false (serCh v) = some v
    simp only [parseWith, if_neg (by simp : ¬ (false = true))]
    exact parseStrictL_ser v hwf hs
  simp only [recover, hp]

theorem parseStrictL_wf {cs : List Char} {v : JsonValue}
    (h : parseStrictL cs = some v) : WfV v := by
  simp only [parseStrictL] at h
  split at h
  · rename_i v' rest heq
    split at h
    · simp only [Option.some.injEq] at h
      rw [← h]
      exact (parse_wf _).1 _ _ _ heq
    · exact absurd h (by simp)
  · exact absurd h (by simp)

theorem parsePrefixL_wf {cs : List Char} {v : JsonValue}
    (h : parsePrefixL cs = some v) : WfV v := by
  simp only [parsePrefixL] at h
  rcases heq : parseVal (2 * cs.length + 2) cs with _ | ⟨v', rest⟩ <;> rw [heq] at h
  · exact absurd h (by simp)
  · simp only [Option.map_some', Option.some.injEq] at h
    rw [← h]
    exact (parse_wf _).1 _ _ _ heq

theorem parseWith_wf {b : Bool} {cs : List Char} {v : JsonValue}
    (h : parseWith b cs = some v) : WfV v := by
  simp only [parseWith] at h
  split at h
  · exact parsePrefixL_wf h
  · exact parseStrictL_wf h

theorem tryCandidate_wf {t : List Char} {opts : ParseOptions} {p : Nat × Nat}
    {v : JsonValue} {st : Strategy} (h : tryCandidate t opts p = some (v, st)) :
    WfV v := by
  simp only [tryCandidate] at h
  split at h
  · rename_i v' heq
    split at h
    · simp only [Option.some.injEq, Prod.mk.injEq] at h
      rw [← h.1]
      exact parseStrictL_wf heq
    · exact absurd h (by simp)
  · split at h
    · split at h
      · rename_i v' heq
        split at h
        · simp only [Option.some.injEq, Prod.mk.injEq] at h
          rw [← h.1]
          exact parseStrictL_wf heq
        · exact absurd h (by simp)
      · exact absurd h (by simp)
    · exact absurd h (by simp)

theorem firstSuccess_wf {t : List Char} {opts : ParseOptions} {v : JsonValue}
    {st : Strategy} :
    ∀ {cands : List (Nat × Nat)}, firstSuccess t opts cands = some (v, st) → WfV v := by
  intro cands
  induction cands with
  | nil => intro h; simp [firstSuccess] at h
  | cons p ps ih =>
    intro h
    simp only [firstSuccess] at h
    split at h
    · rename_i r heq
      simp only [Option.some.injEq] at h
      obtain ⟨v', st'⟩ := r
      rw [h] at heq
      exact tryCandidate_wf heq
    · exact ih h

/-- Every value the recovery pipeline returns is well-formed: each stage
obtains it from the parser. -/
theorem recover_value_wf {s : String} {opts : ParseOptions} {v : JsonValue}
    (h : (recover s opts).value = some v) : WfV v := by
  simp only [recover] at h
  split at h
  · rename_i v' heq
    simp only [Option.some.injEq] at h
    rw [← h]
    exact parseWith_wf heq
  · split at h
    · rename_i v' heq
      simp only [Option.some.injEq] at h
      rw [← h]
      split at heq
      · exact parseWith_wf heq
      · exact absurd heq (by simp)
    · split at h
      · rename_i r heq
        obtain ⟨v', st'⟩ := r
        simp only [Option.some.injEq] at h
        rw [← h]
        exact firstSuccess_wf heq
      · exact absurd h (by simp)

/-- C4 (amended): round-trip idempotence holds on the recovered values whose
strings (member keys included) serialize verbatim — no double quote, no
backslash, no control character.  For such a `v` recovered with success,
re-serializing and re-running the pipeline with default options succeeds at
the direct stage with the same value. -/
theorem c4_roundtrip (s : String) (v : JsonValue)
    (hsu : (recover s defaultOptions).succeeded = true)
    (hv : (recover s defaultOptions).value = some v)
    (hsafe : safeStrings v = true) :
    (recover (serialize v) defaultOptions).succeeded = true ∧
    (recover (serialize v) defaultOptions).value = some v := by
  have hwf := recover_value_wf hv
  rw [recover_ser v hwf hsafe]
  exact ⟨rfl, rfl⟩

/-- The input of the C4 counterexample: a strict JSON object whose string
value encodes a line feed with the `\u000a` escape. -/
def s1 : String := "\x7b\"a\": \"x\\u000ay\"\x7d"

/-- The value recovered from `s1`: the string holds a raw line feed. -/
def v0 : JsonValue := JsonValue.obj [("a", JsonValue.str "x\ny")]

/-- C4 counterexample: `s1` is recovered successfully as `v0`, but
re-serializing `v0` emits the escape pair backslash-`n`, which the
normalizer of the re-run converts into a raw line feed inside the string
literal, and every stage of the pipeline then fails: the round trip of the
spec sentence does not hold for `v0`. -/
theorem c4_roundtrip_counterexample :
    (recover s1 defaultOptions).succeeded = true ∧
    (recover s1 defaultOptions).value = some v0 ∧
    (recover (serialize v0) defaultOptions).succeeded = false := by
  refine ⟨by decide, by decide, by decide⟩

/-- A concrete recovery input whose value is safe for the round trip. -/
def sW : String := "\x7b\"a\": 1\x7d"

/-- The value recovered from `sW`. -/
def vW : JsonValue := JsonValue.obj [("a", JsonValue.num "1")]

/-- Witness for the amended C4 at a concrete input: the hypotheses hold for
`sW` and `vW`, and the round trip succeeds with the same value. -/
theorem c4_roundtrip_witness :
    ((recover sW defaultOptions).succeeded = true ∧
      (recover sW defaultOptions).value = some vW ∧
      safeStrings vW = true) ∧
    (recover (serialize vW) defaultOptions).succeeded = true ∧
    (recover (serialize vW) defaultOptions).value = some vW :=
  ⟨⟨by decide, by decide, by decide⟩,
    c4_roundtrip sW vW (by decide) (by decide) (by decide)⟩
